import Mathlib

/-!
# Verification of the host-revenue-api consensus indexer and stats pipeline

A shallow embedding of the revenue indexer of `SiaFoundation/host-revenue-api`
(`persist/sqlite` consensus processing, the stats `Periods` provider and the
HTTP handlers), together with proofs and refutations of the specification
claims about it.

Conventions of the embedding:

* `types.Currency` is an unsigned 128-bit integer in the source.  The Sia coin
  supply is far below `2^128` and the source's `Add`/`Sub` helpers abort on
  overflow rather than wrap, so currencies are modelled as `Nat`.
  `SubWithUnderflow` returns a wrapped difference together with an underflow
  flag; the wrapped difference is never consumed by this code base when the
  flag is set, so the model returns the truncated difference.
* `decimal.Decimal` (shopspring) is arbitrary-precision base-10 fixed point;
  additions and multiplications used here are exact, so decimals are modelled
  as `Rat`.
* `time.Time` values are modelled as `Int` unix seconds; SQLite stores them
  via `sqlTime` as unix seconds, so comparisons in queries are integer
  comparisons.
* SQL tables are modelled as lists of rows; each query is translated into the
  corresponding list traversal.
-/

namespace HostRevenue

/-- `types.Currency.SubWithUnderflow`: returns the difference and whether the
subtraction underflowed.  (The Go value wraps modulo `2^128` on underflow but
is never used by this code base in that case, so the truncated difference
stands in for it.) -/
def subWithUnderflow (a b : Nat) : Nat × Bool :=
  (a - b, decide (a < b))

/-- `sum` from `persist/sqlite` consensus code: total of a list of currency
values. -/
def sumC (values : List Nat) : Nat :=
  values.foldl (fun t v => t + v) 0

/-- `stats.Values`: a money amount in native units plus USD/EUR/BTC legs. -/
structure Values where
  sc : Nat
  usd : Rat
  eur : Rat
  btc : Rat
deriving Repr, DecidableEq

/-- The zero `stats.Values`. -/
def Values.zero : Values := ⟨0, 0, 0, 0⟩

/-- `stats.Values.Add`. -/
def Values.add (v b : Values) : Values :=
  ⟨v.sc + b.sc, v.usd + b.usd, v.eur + b.eur, v.btc + b.btc⟩

/-- `decimal.NewFromBigInt(x.Big(), -24)`: a currency amount in whole coins,
as an exact decimal. -/
def scDecimal (c : Nat) : Rat :=
  (c : Rat) / (10 ^ 24 : Nat)

/-! ## `estimateHostFunds` (Algorithm R) -/

/-- Inner `j` loop of `estimateHostFunds`: `j` counts down from
`len(outputs)` to `0`; the first split of `outputs` into
`(renter = outputs[:j], host = outputs[j:])` passing the source's two `continue`
checks yields `hostInput - hostOutput`. -/
def estimateJ (outputs : List Nat) (renterTarget hostTarget renterInput hostInput : Nat) :
    Nat → Option Nat
  | 0 =>
    let renterOutput := sumC (outputs.take 0)
    let hostOutput := sumC (outputs.drop 0)
    if renterInput < renterOutput ∨ hostInput < hostOutput then none
    else if renterInput - renterOutput ≤ renterTarget ∨ hostTarget ≤ hostInput - hostOutput then
      none
    else some (hostInput - hostOutput)
  | j + 1 =>
    let renterOutput := sumC (outputs.take (j + 1))
    let hostOutput := sumC (outputs.drop (j + 1))
    if renterInput < renterOutput ∨ hostInput < hostOutput then
      estimateJ outputs renterTarget hostTarget renterInput hostInput j
    else if renterInput - renterOutput ≤ renterTarget ∨ hostTarget ≤ hostInput - hostOutput then
      estimateJ outputs renterTarget hostTarget renterInput hostInput j
    else some (hostInput - hostOutput)

/-- Outer `i` loop of `estimateHostFunds`, iterating over the given list of
input-split indices in order (`for i := range inputs`). -/
def estimateILoop (inputs outputs : List Nat) (renterTarget hostTarget : Nat) :
    List Nat → Option Nat
  | [] => none
  | i :: rest =>
    let renterInput := sumC (inputs.take i)
    let hostInput := sumC (inputs.drop i)
    match estimateJ outputs renterTarget hostTarget renterInput hostInput outputs.length with
    | some v => some v
    | none => estimateILoop inputs outputs renterTarget hostTarget rest

/-- `estimateHostFunds` from the consensus indexer: attempts to separate the
renter and host inputs and outputs, returning the estimated host net funding
and whether an estimate was found. -/
def estimateHostFunds (inputs outputs : List Nat) (renterTarget hostTarget : Nat) :
    Nat × Bool :=
  match estimateILoop inputs outputs renterTarget hostTarget (List.range inputs.length) with
  | some v => (v, true)
  | none => (0, false)

/-! Specification-side description of the claim for `estimateHostFunds`: the
four predicates of Algorithm R on a split `(i, j)`, and the first split in the
source's iteration order (`i` ascending over the input indices, `j` descending
from `len(outputs)` to `0`). -/

/-- The four predicates of Algorithm R on the split `(i, j)`, as the claim
states them. -/
def splitAccepted (inputs outputs : List Nat) (renterTarget hostTarget : Nat)
    (p : Nat × Nat) : Bool :=
  let renterIn := sumC (inputs.take p.1)
  let hostIn := sumC (inputs.drop p.1)
  let renterOut := sumC (outputs.take p.2)
  let hostOut := sumC (outputs.drop p.2)
  decide (renterOut ≤ renterIn) && decide (hostOut ≤ hostIn) &&
    decide (renterTarget < renterIn - renterOut) && decide (hostIn - hostOut < hostTarget)

/-- All splits `(i, j)` in the iteration order of the source: `i` ascending
over the input indices, and for each `i`, `j` descending from `len(outputs)`
down to `0`. -/
def splitOrder (numInputs numOutputs : Nat) : List (Nat × Nat) :=
  (List.range numInputs).flatMap fun i =>
    ((List.range (numOutputs + 1)).reverse).map fun j => (i, j)

/-- The first split in the source's iteration order satisfying all four
predicates. -/
def firstSplit (inputs outputs : List Nat) (renterTarget hostTarget : Nat) :
    Option (Nat × Nat) :=
  (splitOrder inputs.length outputs.length).find?
    (splitAccepted inputs outputs renterTarget hostTarget)

/-- `types.FileContract`, restricted to the fields the indexer reads: the
valid/missed proof output values and the proof window end. -/
structure FileContract where
  validProofOutputs : List Nat
  missedProofOutputs : List Nat
  windowEnd : Nat
deriving Repr, DecidableEq

/-- `FileContract.ValidHostPayout`: the value of the second valid proof
output (all call sites guard `len ≥ 2`). -/
def FileContract.validHostPayout (fc : FileContract) : Nat :=
  fc.validProofOutputs.getD 1 0

/-- `FileContract.MissedHostPayout`: the value of the second missed proof
output (all call sites guard `len ≥ 2`). -/
def FileContract.missedHostPayout (fc : FileContract) : Nat :=
  fc.missedProofOutputs.getD 1 0

/-- The renewal-revenue estimation block of `ProcessConsensusChange` for a
contract formation: on a lone two-output contract, run `estimateHostFunds`
with `renterTarget = validRenterPayout + fees` and
`hostTarget = missedHostPayout`, and keep the non-underflowing differences as
the initial revenues. -/
def formationRevenues (inputs outputs : List Nat) (fees numContracts : Nat)
    (fc : FileContract) : Nat × Nat :=
  if 2 ≤ fc.validProofOutputs.length ∧ 2 ≤ fc.missedProofOutputs.length ∧
      numContracts = 1 then
    let renterTarget := fc.validProofOutputs.getD 0 0 + fees
    let hostTarget := fc.missedProofOutputs.getD 1 0
    let r := estimateHostFunds inputs outputs renterTarget hostTarget
    if r.2 then
      let v := subWithUnderflow fc.validHostPayout r.1
      let m := subWithUnderflow fc.missedHostPayout r.1
      ((if v.2 then 0 else v.1), (if m.2 then 0 else m.1))
    else (0, 0)
  else (0, 0)

theorem splitAccepted_true_iff (inputs outputs : List Nat) (rt ht i j : Nat) :
    splitAccepted inputs outputs rt ht (i, j) = true ↔
      sumC (outputs.take j) ≤ sumC (inputs.take i) ∧
      sumC (outputs.drop j) ≤ sumC (inputs.drop i) ∧
      rt < sumC (inputs.take i) - sumC (outputs.take j) ∧
      sumC (inputs.drop i) - sumC (outputs.drop j) < ht := by
  simp [splitAccepted, and_assoc]

theorem estimateJ_step (inputs outputs : List Nat) (rt ht i j : Nat) :
    estimateJ outputs rt ht (sumC (inputs.take i)) (sumC (inputs.drop i)) j =
      if splitAccepted inputs outputs rt ht (i, j) then
        some (sumC (inputs.drop i) - sumC (outputs.drop j))
      else
        match j with
        | 0 => none
        | jj + 1 => estimateJ outputs rt ht (sumC (inputs.take i)) (sumC (inputs.drop i)) jj := by
  by_cases hacc : splitAccepted inputs outputs rt ht (i, j) = true
  · have h := (splitAccepted_true_iff inputs outputs rt ht i j).mp hacc
    cases j with
    | zero =>
      rw [if_pos hacc]
      simp only [estimateJ]
      rw [if_neg (by omega), if_neg (by omega)]
    | succ jj =>
      rw [if_pos hacc]
      simp only [estimateJ]
      rw [if_neg (by omega), if_neg (by omega)]
  · have h := (splitAccepted_true_iff inputs outputs rt ht i j).not.mp hacc
    rw [if_neg hacc]
    cases j with
    | zero =>
      simp only [estimateJ]
      by_cases h1 : sumC (inputs.take i) < sumC (outputs.take 0) ∨
          sumC (inputs.drop i) < sumC (outputs.drop 0)
      · rw [if_pos h1]
      · rw [if_neg h1, if_pos (by omega)]
    | succ jj =>
      simp only [estimateJ]
      by_cases h1 : sumC (inputs.take i) < sumC (outputs.take (jj + 1)) ∨
          sumC (inputs.drop i) < sumC (outputs.drop (jj + 1))
      · rw [if_pos h1]
      · rw [if_neg h1, if_pos (by omega)]

theorem estimateJ_eq_find (inputs outputs : List Nat) (rt ht i : Nat) :
    ∀ j, estimateJ outputs rt ht (sumC (inputs.take i)) (sumC (inputs.drop i)) j =
      (((List.range (j + 1)).reverse).find?
          (fun jj => splitAccepted inputs outputs rt ht (i, jj))).map
        (fun jj => sumC (inputs.drop i) - sumC (outputs.drop jj)) := by
  intro j
  induction j with
  | zero =>
    rw [estimateJ_step]
    cases hacc : splitAccepted inputs outputs rt ht (i, 0) <;>
      simp [hacc, List.range_succ]
  | succ jj ih =>
    have hrange : (List.range (jj + 2)).reverse = (jj + 1) :: (List.range (jj + 1)).reverse := by
      rw [List.range_succ, List.reverse_append]
      simp
    rw [estimateJ_step, hrange]
    cases hacc : splitAccepted inputs outputs rt ht (i, jj + 1) <;>
      simp [hacc, ih]

theorem estimateILoop_eq_find (inputs outputs : List Nat) (rt ht : Nat) :
    ∀ l : List Nat,
      estimateILoop inputs outputs rt ht l =
        ((l.flatMap fun i =>
              ((List.range (outputs.length + 1)).reverse).map fun j => (i, j)).find?
            (splitAccepted inputs outputs rt ht)).map
          (fun p => sumC (inputs.drop p.1) - sumC (outputs.drop p.2)) := by
  intro l
  induction l with
  | nil => simp [estimateILoop]
  | cons i rest ih =>
    rw [List.flatMap_cons, List.find?_append]
    show (match estimateJ outputs rt ht (sumC (inputs.take i)) (sumC (inputs.drop i))
            outputs.length with
          | some v => some v
          | none => estimateILoop inputs outputs rt ht rest) = _
    rw [estimateJ_eq_find inputs outputs rt ht i outputs.length, List.find?_map]
    have hcomp : ((splitAccepted inputs outputs rt ht) ∘ fun j => (i, j)) =
        fun jj => splitAccepted inputs outputs rt ht (i, jj) := rfl
    rw [hcomp]
    cases hfind : ((List.range (outputs.length + 1)).reverse).find?
        (fun jj => splitAccepted inputs outputs rt ht (i, jj)) with
    | none => simpa [hfind] using ih
    | some jj => simp [hfind]

/-- Claim C7: `estimateHostFunds` returns `(Σhost_in − Σhost_out, true)` for
the first split — `i` ascending over the input indices, `j` descending from
`len(outputs)` to `0` — satisfying the four predicates of Algorithm R, and
`(0, false)` when no enumerated split satisfies them; a formed contract's
`initialValidRevenue`/`initialMissedRevenue` are then the saturating
differences `validHostPayout − hostFunds` / `missedHostPayout − hostFunds`,
and zero when no estimate is found. -/
theorem estimateHostFunds_firstSplit (inputs outputs : List Nat)
    (renterTarget hostTarget fees numContracts : Nat) (fc : FileContract) :
    (estimateHostFunds inputs outputs renterTarget hostTarget =
      match firstSplit inputs outputs renterTarget hostTarget with
      | some p => (sumC (inputs.drop p.1) - sumC (outputs.drop p.2), true)
      | none => (0, false)) ∧
    (formationRevenues inputs outputs fees numContracts fc =
      if 2 ≤ fc.validProofOutputs.length ∧ 2 ≤ fc.missedProofOutputs.length ∧
          numContracts = 1 then
        (let r := estimateHostFunds inputs outputs (fc.validProofOutputs.getD 0 0 + fees)
            (fc.missedProofOutputs.getD 1 0)
         if r.2 then (fc.validHostPayout - r.1, fc.missedHostPayout - r.1) else (0, 0))
      else (0, 0)) := by
  have hmain : ∀ rt ht : Nat, estimateHostFunds inputs outputs rt ht =
      match firstSplit inputs outputs rt ht with
      | some p => (sumC (inputs.drop p.1) - sumC (outputs.drop p.2), true)
      | none => (0, false) := by
    intro rt ht
    rw [estimateHostFunds, estimateILoop_eq_find, firstSplit, splitOrder]
    cases hfind : ((List.range inputs.length).flatMap fun i =>
        ((List.range (outputs.length + 1)).reverse).map fun j => (i, j)).find?
        (splitAccepted inputs outputs rt ht) <;> simp [hfind]
  refine ⟨hmain renterTarget hostTarget, ?_⟩
  simp only [formationRevenues]
  split
  · generalize estimateHostFunds inputs outputs (fc.validProofOutputs.getD 0 0 + fees)
        (fc.missedProofOutputs.getD 1 0) = r
    cases r with
    | mk hf found =>
      cases found with
      | false => simp
      | true =>
        rw [if_pos rfl, if_pos rfl]
        simp only [subWithUnderflow, Prod.mk.injEq]
        constructor
        · by_cases hv : fc.validHostPayout < hf
          · rw [if_pos (by simpa using hv)]; omega
          · rw [if_neg (by simpa using hv)]
        · by_cases hm : fc.missedHostPayout < hf
          · rw [if_pos (by simpa using hm)]; omega
          · rw [if_neg (by simpa using hm)]
  · rfl

/-! ## The maturation pass: per-contract revenue and payout -/

/-- A row of `active_contracts`, as scanned by `scanContract` into
`stats.Contract`: `finalValid`/`finalMissed` are the current
`valid_payout_value`/`missed_payout_value`. -/
structure ContractRow where
  contractId : Nat
  blockDbId : Nat
  initialValid : Nat
  initialMissed : Nat
  finalValid : Nat
  finalMissed : Nat
  initialValidRevenue : Nat
  initialMissedRevenue : Nat
  expirationHeight : Nat
  proofBlockDbId : Option Nat
deriving Repr, DecidableEq

/-- Revenue of a missed (expired, unproven) contract in the maturation pass:
only when `finalMissed − initialMissed` does not underflow does the loop set
any leg of the revenue; the native leg then also includes
`initialMissedRevenue`. -/
def missedContractRevenue (usdRate eurRate btcRate : Rat) (c : ContractRow) : Values :=
  let s := subWithUnderflow c.finalMissed c.initialMissed
  if s.2 then Values.zero
  else
    let sc := s.1 + c.initialMissedRevenue
    let scD := scDecimal sc
    ⟨sc, scD * usdRate, scD * eurRate, scD * btcRate⟩

/-- Payout credited for a missed contract: the source credits the contract's
valid payout value (`payout.SC = c.FinalValid`). -/
def missedContractPayout (usdRate eurRate btcRate : Rat) (c : ContractRow) : Values :=
  let scD := scDecimal c.finalValid
  ⟨c.finalValid, scD * usdRate, scD * eurRate, scD * btcRate⟩

/-- Revenue of a valid (proven) contract in the maturation pass.  The source
sets only the `SC`, `USD` and `EUR` legs in this loop; the `BTC` leg of the
revenue is never assigned and stays zero. -/
def validContractRevenue (usdRate eurRate btcRate : Rat) (c : ContractRow) : Values :=
  let s := subWithUnderflow c.finalValid c.initialValid
  if s.2 then Values.zero
  else
    let sc := s.1 + c.initialValidRevenue
    let scD := scDecimal sc
    ⟨sc, scD * usdRate, scD * eurRate, 0⟩

/-- Payout credited for a valid contract: the contract's valid payout value,
with all three fiat legs. -/
def validContractPayout (usdRate eurRate btcRate : Rat) (c : ContractRow) : Values :=
  let scD := scDecimal c.finalValid
  ⟨c.finalValid, scD * usdRate, scD * eurRate, scD * btcRate⟩

/-- The `(totalRevenue, totalPayout)` accumulated by the maturation pass of
`ProcessConsensusChange` over the missed contracts followed by the valid
contracts, in loop order. -/
def maturationTotals (usdRate eurRate btcRate : Rat)
    (missedList validList : List ContractRow) : Values × Values :=
  let afterMissed := missedList.foldl
    (fun acc c => (acc.1.add (missedContractRevenue usdRate eurRate btcRate c),
                   acc.2.add (missedContractPayout usdRate eurRate btcRate c)))
    (Values.zero, Values.zero)
  validList.foldl
    (fun acc c => (acc.1.add (validContractRevenue usdRate eurRate btcRate c),
                   acc.2.add (validContractPayout usdRate eurRate btcRate c)))
    afterMissed

/-- Sum of a list of `stats.Values`. -/
def valuesSum : List Values → Values
  | [] => Values.zero
  | v :: rest => v.add (valuesSum rest)

theorem Values.add_assoc (a b c : Values) : (a.add b).add c = a.add (b.add c) := by
  simp only [Values.add, Values.mk.injEq]
  refine ⟨by omega, by ring, by ring, by ring⟩

theorem Values.zero_add (a : Values) : Values.zero.add a = a := by
  simp [Values.add, Values.zero]

theorem foldl_add_values (g h : ContractRow → Values) :
    ∀ (cs : List ContractRow) (init : Values × Values),
      cs.foldl (fun acc c => (acc.1.add (g c), acc.2.add (h c))) init =
        (init.1.add (valuesSum (cs.map g)), init.2.add (valuesSum (cs.map h)))
  | [], init => by
    cases init with
    | mk r p => simp [valuesSum, Values.add, Values.zero]
  | c :: rest, init => by
    rw [List.foldl_cons, foldl_add_values g h rest]
    simp [valuesSum, Values.add_assoc]

theorem maturationTotals_eq (u e b : Rat) (ml vl : List ContractRow) :
    maturationTotals u e b ml vl =
      ((valuesSum (ml.map (missedContractRevenue u e b))).add
          (valuesSum (vl.map (validContractRevenue u e b))),
        (valuesSum (ml.map (missedContractPayout u e b))).add
          (valuesSum (vl.map (validContractPayout u e b)))) := by
  rw [maturationTotals, foldl_add_values, foldl_add_values]
  simp [Values.zero_add, Values.add_assoc]

theorem valuesSum_sc (l : List Values) : (valuesSum l).sc = (l.map Values.sc).sum := by
  induction l with
  | nil => simp [valuesSum, Values.zero]
  | cons v rest ih => simp [valuesSum, Values.add, ih]

theorem valuesSum_usd (l : List Values) : (valuesSum l).usd = (l.map Values.usd).sum := by
  induction l with
  | nil => simp [valuesSum, Values.zero]
  | cons v rest ih => simp [valuesSum, Values.add, ih]

theorem valuesSum_eur (l : List Values) : (valuesSum l).eur = (l.map Values.eur).sum := by
  induction l with
  | nil => simp [valuesSum, Values.zero]
  | cons v rest ih => simp [valuesSum, Values.add, ih]

theorem valuesSum_btc (l : List Values) : (valuesSum l).btc = (l.map Values.btc).sum := by
  induction l with
  | nil => simp [valuesSum, Values.zero]
  | cons v rest ih => simp [valuesSum, Values.add, ih]

theorem missedContractRevenue_sc (u e b : Rat) (c : ContractRow) :
    (missedContractRevenue u e b c).sc =
      if c.initialMissed ≤ c.finalMissed then
        c.finalMissed - c.initialMissed + c.initialMissedRevenue
      else 0 := by
  rw [missedContractRevenue]
  by_cases h : c.finalMissed < c.initialMissed
  · rw [if_pos (by simpa [subWithUnderflow] using h), if_neg (by omega)]
    rfl
  · rw [if_neg (by simpa [subWithUnderflow] using h), if_pos (by omega)]
    rfl

theorem validContractRevenue_sc (u e b : Rat) (c : ContractRow) :
    (validContractRevenue u e b c).sc =
      if c.initialValid ≤ c.finalValid then
        c.finalValid - c.initialValid + c.initialValidRevenue
      else 0 := by
  rw [validContractRevenue]
  by_cases h : c.finalValid < c.initialValid
  · rw [if_pos (by simpa [subWithUnderflow] using h), if_neg (by omega)]
    rfl
  · rw [if_neg (by simpa [subWithUnderflow] using h), if_pos (by omega)]
    rfl

theorem validContractRevenue_btc (u e b : Rat) (c : ContractRow) :
    (validContractRevenue u e b c).btc = 0 := by
  rw [validContractRevenue]
  split <;> rfl

theorem validContractRevenue_usd (u e b : Rat) (c : ContractRow) :
    (validContractRevenue u e b c).usd =
      scDecimal (if c.initialValid ≤ c.finalValid then
        c.finalValid - c.initialValid + c.initialValidRevenue else 0) * u := by
  rw [validContractRevenue]
  by_cases h : c.finalValid < c.initialValid
  · rw [if_pos (by simpa [subWithUnderflow] using h), if_neg (by omega)]
    simp [Values.zero, scDecimal]
  · rw [if_neg (by simpa [subWithUnderflow] using h), if_pos (by omega)]
    rfl

theorem validContractRevenue_eur (u e b : Rat) (c : ContractRow) :
    (validContractRevenue u e b c).eur =
      scDecimal (if c.initialValid ≤ c.finalValid then
        c.finalValid - c.initialValid + c.initialValidRevenue else 0) * e := by
  rw [validContractRevenue]
  by_cases h : c.finalValid < c.initialValid
  · rw [if_pos (by simpa [subWithUnderflow] using h), if_neg (by omega)]
    simp [Values.zero, scDecimal]
  · rw [if_neg (by simpa [subWithUnderflow] using h), if_pos (by omega)]
    rfl

/-- Claim C1 counterexample: for a missed contract with `finalMissed = 0`,
`initialMissed = 1` and `initialMissedRevenue = 5` (underflowing
subtraction), the maturation pass credits native revenue `0` to the bucket
totals, not `saturating_sub(0, 1) + 5 = 5` as the claim states: the
`initialMissedRevenue` term is *not* added when the subtraction underflows. -/
theorem missedRevenue_underflow_counterexample :
    (maturationTotals 1 1 1 [⟨1, 1, 0, 1, 0, 0, 0, 5, 1, none⟩] []).1.sc ≠
      (0 - 1 : Nat) + 5 := by
  decide

/-- Claim C1 (amended): the native revenue the maturation pass credits to the
hourly bucket for a list of missed contracts is, per contract,
`(finalMissed − initialMissed) + initialMissedRevenue` when the subtraction
does not underflow, and `0` (the `initialMissedRevenue` term included) when
it does. -/
theorem missedRevenue_bucket (u e b : Rat) (cs : List ContractRow) :
    (maturationTotals u e b cs []).1.sc =
      (cs.map fun c =>
          if c.initialMissed ≤ c.finalMissed then
            c.finalMissed - c.initialMissed + c.initialMissedRevenue
          else 0).sum := by
  rw [maturationTotals_eq]
  show ((valuesSum (cs.map (missedContractRevenue u e b))).add (valuesSum [])).sc = _
  simp only [valuesSum, Values.add, Values.zero, valuesSum_sc, List.map_map, Nat.add_zero]
  congr 1
  exact List.map_congr_left fun c _ => missedContractRevenue_sc u e b c

/-- Claim C2 counterexample.  First conjunct: a valid contract whose
subtraction underflows (`finalValid = 0 < 1 = initialValid`,
`initialValidRevenue = 7`) is credited native revenue `0`, not
`saturating_sub(0,1) + 7 = 7`.  Second conjunct: a valid contract with
revenue one whole coin and BTC rate `1` is credited BTC revenue `0`, not
`(revenueNative / 10^24) · btc = 1`: the valid-contract loop never assigns
the BTC revenue leg, so valid contracts are *not* accumulated identically to
missed contracts. -/
theorem validRevenue_counterexample :
    ((maturationTotals 1 1 1 [] [⟨1, 1, 1, 0, 0, 0, 7, 0, 1, none⟩]).1.sc ≠
        (0 - 1 : Nat) + 7) ∧
      ((maturationTotals 1 1 1 [] [⟨2, 1, 0, 0, 10 ^ 24, 0, 0, 0, 1, none⟩]).1.btc ≠
        scDecimal ((10 ^ 24 : Nat) - 0 + 0) * 1) := by
  constructor
  · decide
  · intro h
    rw [maturationTotals_eq] at h
    simp [valuesSum, Values.add, Values.zero, validContractRevenue, subWithUnderflow,
      scDecimal] at h

/-- Claim C2 (amended): in the maturation pass over valid (proven) contracts,
the native revenue per contract is `(finalValid − initialValid) +
initialValidRevenue` when the subtraction does not underflow and `0`
otherwise; the USD and EUR revenue legs equal `(revenueNative / 10^24)` times
the corresponding rate, but the BTC revenue leg is never assigned and stays
`0`; the payout is accumulated with all four legs
(`finalValid` and `(finalValid / 10^24)` times each rate). -/
theorem validContracts_accumulation (u e b : Rat) (cs : List ContractRow) :
    ((maturationTotals u e b [] cs).1.sc =
        (cs.map fun c =>
            if c.initialValid ≤ c.finalValid then
              c.finalValid - c.initialValid + c.initialValidRevenue
            else 0).sum) ∧
      ((maturationTotals u e b [] cs).1.usd =
        (cs.map fun c =>
            scDecimal (if c.initialValid ≤ c.finalValid then
              c.finalValid - c.initialValid + c.initialValidRevenue else 0) * u).sum) ∧
      ((maturationTotals u e b [] cs).1.eur =
        (cs.map fun c =>
            scDecimal (if c.initialValid ≤ c.finalValid then
              c.finalValid - c.initialValid + c.initialValidRevenue else 0) * e).sum) ∧
      ((maturationTotals u e b [] cs).1.btc = 0) ∧
      ((maturationTotals u e b [] cs).2.sc = (cs.map fun c => c.finalValid).sum) ∧
      ((maturationTotals u e b [] cs).2.usd =
        (cs.map fun c => scDecimal c.finalValid * u).sum) ∧
      ((maturationTotals u e b [] cs).2.eur =
        (cs.map fun c => scDecimal c.finalValid * e).sum) ∧
      ((maturationTotals u e b [] cs).2.btc =
        (cs.map fun c => scDecimal c.finalValid * b).sum) := by
  rw [maturationTotals_eq]
  refine ⟨?_, ?_, ?_, ?_, ?_, ?_, ?_, ?_⟩ <;>
    simp only [List.map_nil, valuesSum, Values.add, Values.zero, valuesSum_sc, valuesSum_usd,
      valuesSum_eur, valuesSum_btc, List.map_map, Nat.zero_add, Nat.add_zero, zero_add,
      add_zero]
  · congr 1
    exact List.map_congr_left fun c _ => validContractRevenue_sc u e b c
  · congr 1
    exact List.map_congr_left fun c _ => validContractRevenue_usd u e b c
  · congr 1
    exact List.map_congr_left fun c _ => validContractRevenue_eur u e b c
  · rw [show (Values.btc ∘ validContractRevenue u e b) =
        (fun c : ContractRow => (0 : Rat)) from
      funext fun c => validContractRevenue_btc u e b c]
    simp
  · rfl
  · rfl
  · rfl
  · rfl

/-! ## `Store.Periods` (stats provider, `persist/sqlite/contracts.go`)

Timestamps are modelled as `Nat` unix seconds and the period as a fixed
positive step `p` in seconds (`3600` for `hourly`); `NormalizePeriod`
truncates to the period boundary and `nextPeriod` advances by one step. -/

/-- A row of `hourly_contract_stats` as scanned by `Store.Periods` (the
revision cited by the claims scans counters plus single-currency payout and
revenue columns). -/
structure PeriodRow where
  timestamp : Nat
  active : Int
  valid : Int
  missed : Int
  payout : Nat
  revenue : Nat
deriving Repr, DecidableEq

/-- The zero `stats.ContractState` carrying only a timestamp. -/
def zeroPeriodRow (t : Nat) : PeriodRow := ⟨t, 0, 0, 0, 0, 0⟩

/-- `stats.NormalizePeriod`: truncate a timestamp to its period boundary. -/
def normalizePeriod (p t : Nat) : Nat := p * (t / p)

/-- `nextPeriod`: advance a timestamp by one period step. -/
def nextPeriod (p t : Nat) : Nat := t + p

/-- The `values` map of `Store.Periods`: rows are bucketed by their
normalized timestamp, later rows overwriting earlier ones (the query returns
rows in ascending `date_created` order, so the last row per bucket wins). -/
def bucketValues (p : Nat) (rows : List PeriodRow) : List (Nat × PeriodRow) :=
  rows.foldl
    (fun m row =>
      let key := normalizePeriod p row.timestamp
      let updated := { row with timestamp := key }
      if m.any (fun kv => decide (kv.1 = key)) then
        m.map (fun kv => if kv.1 = key then (key, updated) else kv)
      else m ++ [(key, updated)])
    []

/-- Map lookup in the `values` association list. -/
def lookupBucket (m : List (Nat × PeriodRow)) (k : Nat) : Option PeriodRow :=
  (m.find? (fun kv => decide (kv.1 = k))).map Prod.snd

/-- The loop `for t := start; t.Before(end); t = nextPeriod(t, period)`:
all period boundaries from `start` (inclusive) to `endT` (exclusive). -/
def periodBoundaries (p start endT : Nat) : List Nat :=
  if h : start < endT ∧ 0 < p then start :: periodBoundaries p (start + p) endT else []
termination_by endT - start
decreasing_by
  have h1 := h.1
  have h2 := h.2
  omega

/-- The fill loop of `Store.Periods`: each boundary takes its bucket value
when present, otherwise the previously emitted row; the timestamp is
rewritten to the boundary either way. -/
def fillLoop (values : List (Nat × PeriodRow)) : PeriodRow → List Nat → List PeriodRow
  | _, [] => []
  | prev, t :: rest =>
    let v := match lookupBucket values t with
      | some row => { row with timestamp := t }
      | none => { prev with timestamp := t }
    v :: fillLoop values v rest

/-- `Store.Periods`: select the stored rows in `[start, endT]`, bucket them
by normalized timestamp, then emit one forward-filled row per period step.
The source reads `state[0]` as the initial `prev` — the zero row at `start` —
and panics when the range is empty, modelled as `none`.  (The source also
re-reads exchange rates into a discarded loop copy; that loop has no effect
on the result and is omitted.) -/
def Periods (p : Nat) (start endT : Nat) (table : List PeriodRow) :
    Option (List PeriodRow) :=
  let rows := table.filter (fun r => decide (start ≤ r.timestamp) && decide (r.timestamp ≤ endT))
  let values := bucketValues p rows
  match periodBoundaries p start endT with
  | [] => none
  | t0 :: rest => some (fillLoop values (zeroPeriodRow t0) (t0 :: rest))

theorem periodBoundaries_length (p : Nat) (hp : 0 < p) :
    ∀ start endT : Nat, (periodBoundaries p start endT).length = (endT - start + p - 1) / p := by
  intro start endT
  by_cases h : start < endT
  · rw [periodBoundaries, dif_pos ⟨h, hp⟩]
    have ih := periodBoundaries_length p hp (start + p) endT
    simp only [List.length_cons, ih]
    rcases Nat.lt_or_ge endT (start + p) with hlt | hge
    · have hz : endT - (start + p) = 0 := by omega
      rw [hz]
      have e1 : endT - start + p - 1 = (endT - start - 1) + p := by omega
      rw [e1, Nat.add_div_right _ hp]
      have e2 : 0 + p - 1 = p - 1 := by omega
      rw [e2]
      have e3 : (endT - start - 1) / p = 0 := Nat.div_eq_of_lt (by omega)
      have e4 : (p - 1) / p = 0 := Nat.div_eq_of_lt (by omega)
      omega
    · have e1 : endT - start + p - 1 = (endT - (start + p) + p - 1) + p := by omega
      rw [e1, Nat.add_div_right _ hp]
  · rw [periodBoundaries, dif_neg (by omega)]
    have e1 : endT - start = 0 := by omega
    rw [e1]
    have e2 : 0 + p - 1 = p - 1 := by omega
    rw [e2]
    have e3 : (p - 1) / p = 0 := Nat.div_eq_of_lt (by omega)
    simp [e3]
termination_by start endT => endT - start
decreasing_by omega

theorem periodBoundaries_getD (p : Nat) (hp : 0 < p) :
    ∀ (start endT : Nat) (i : Nat), i < (periodBoundaries p start endT).length →
      (periodBoundaries p start endT).getD i 0 = start + i * p := by
  intro start endT i hi
  by_cases hse : start < endT
  · rw [periodBoundaries, dif_pos ⟨hse, hp⟩] at hi ⊢
    cases i with
    | zero => simp
    | succ j =>
      simp only [List.getD_cons_succ]
      rw [periodBoundaries_getD p hp (start + p) endT j (by simpa using hi)]
      ring
  · rw [periodBoundaries, dif_neg (by omega)] at hi
    simp at hi
termination_by start endT => endT - start
decreasing_by omega

theorem fillLoop_length (values : List (Nat × PeriodRow)) :
    ∀ (ts : List Nat) (prev : PeriodRow), (fillLoop values prev ts).length = ts.length := by
  intro ts
  induction ts with
  | nil => intro prev; rfl
  | cons t rest ih => intro prev; simp [fillLoop, ih]

theorem fillLoop_timestamp (values : List (Nat × PeriodRow)) (dflt : PeriodRow) :
    ∀ (ts : List Nat) (prev : PeriodRow) (i : Nat), i < ts.length →
      ((fillLoop values prev ts).getD i dflt).timestamp = ts.getD i 0 := by
  intro ts
  induction ts with
  | nil => intro prev i hi; simp at hi
  | cons t rest ih =>
    intro prev i hi
    cases i with
    | zero =>
      simp only [fillLoop, List.getD_cons_zero, List.getD_cons_succ]
      cases hlook : lookupBucket values t <;> simp [hlook]
    | succ j =>
      simp only [fillLoop, List.getD_cons_succ]
      exact ih _ j (by simpa using hi)

theorem fillLoop_getD (values : List (Nat × PeriodRow)) (dflt : PeriodRow) :
    ∀ (ts : List Nat) (prev : PeriodRow) (i : Nat), i < ts.length →
      (fillLoop values prev ts).getD i dflt =
        (match lookupBucket values (ts.getD i 0) with
         | some row => { row with timestamp := ts.getD i 0 }
         | none =>
           { (if i = 0 then prev else (fillLoop values prev ts).getD (i - 1) dflt) with
             timestamp := ts.getD i 0 }) := by
  intro ts
  induction ts with
  | nil => intro prev i hi; simp at hi
  | cons t rest ih =>
    intro prev i hi
    cases i with
    | zero =>
      simp only [fillLoop, List.getD_cons_zero]
      cases hlook : lookupBucket values t <;> simp [hlook]
    | succ j =>
      simp only [fillLoop, List.getD_cons_succ]
      rw [ih _ j (by simpa using hi)]
      cases j with
      | zero => simp [fillLoop]
      | succ k => simp [fillLoop, Nat.succ_sub_one]

/-- Claim C8: for `0 < p`, `start` on a period boundary and `start < endT`,
`Periods` returns exactly one row per period step from `start` (inclusive) to
`endT` (exclusive) — `ceil((endT − start)/p)` rows — with timestamps strictly
increasing and each on a period boundary; a period with no stored bucket is
forward-filled from the preceding emitted row, and a missing first period is
filled with zeros. -/
theorem Periods_spec (p start endT : Nat) (table : List PeriodRow)
    (hp : 0 < p) (hdvd : p ∣ start) (hlt : start < endT) :
    ∃ out, Periods p start endT table = some out ∧
      out.length = (endT - start + p - 1) / p ∧
      (∀ i, i < out.length → (out.getD i (zeroPeriodRow 0)).timestamp = start + i * p) ∧
      (∀ i, i < out.length → p ∣ (out.getD i (zeroPeriodRow 0)).timestamp) ∧
      (∀ i j, i < j → j < out.length →
        (out.getD i (zeroPeriodRow 0)).timestamp < (out.getD j (zeroPeriodRow 0)).timestamp) ∧
      (∀ i, i < out.length →
        out.getD i (zeroPeriodRow 0) =
          match lookupBucket (bucketValues p (table.filter fun r =>
              decide (start ≤ r.timestamp) && decide (r.timestamp ≤ endT))) (start + i * p) with
          | some row => { row with timestamp := start + i * p }
          | none =>
            if i = 0 then zeroPeriodRow start
            else { out.getD (i - 1) (zeroPeriodRow 0) with timestamp := start + i * p }) := by
  have hb1 : periodBoundaries p start endT = start :: periodBoundaries p (start + p) endT := by
    rw [periodBoundaries, dif_pos ⟨hlt, hp⟩]
  set values := bucketValues p (table.filter fun r =>
    decide (start ≤ r.timestamp) && decide (r.timestamp ≤ endT)) with hvalues
  refine ⟨fillLoop values (zeroPeriodRow start) (periodBoundaries p start endT), ?_, ?_, ?_, ?_, ?_, ?_⟩
  · rw [Periods, hb1]
  · rw [fillLoop_length, periodBoundaries_length p hp]
  · intro i hi
    rw [fillLoop_length] at hi
    rw [fillLoop_timestamp values (zeroPeriodRow 0) _ _ i hi]
    exact periodBoundaries_getD p hp start endT i hi
  · intro i hi
    rw [fillLoop_length] at hi
    rw [fillLoop_timestamp values (zeroPeriodRow 0) _ _ i hi]
    rw [periodBoundaries_getD p hp start endT i hi]
    exact Dvd.dvd.add hdvd (dvd_mul_left p i)
  · intro i j hij hj
    rw [fillLoop_length] at hj
    rw [fillLoop_timestamp values (zeroPeriodRow 0) _ _ i (by omega),
      fillLoop_timestamp values (zeroPeriodRow 0) _ _ j hj,
      periodBoundaries_getD p hp start endT i (by omega),
      periodBoundaries_getD p hp start endT j hj]
    exact Nat.add_lt_add_left (Nat.mul_lt_mul_of_pos_right hij hp) start
  · intro i hi
    rw [fillLoop_length] at hi
    rw [fillLoop_getD values (zeroPeriodRow 0) _ _ i hi]
    rw [show (periodBoundaries p start endT).getD i 0 = start + i * p from
      periodBoundaries_getD p hp start endT i hi]
    cases hlook : lookupBucket values (start + i * p) with
    | some row => rfl
    | none =>
      by_cases hi0 : i = 0
      · subst hi0
        simp [zeroPeriodRow]
      · simp only [if_neg hi0]

/-- Witness for claim C8 at a concrete input: one stored hourly bucket, a
two-hour range starting on the boundary. -/
theorem Periods_spec_witness :
    (Periods 3600 0 7200 [⟨3600, 1, 0, 0, 5, 5⟩]).isSome = true := by
  obtain ⟨out, h1, _⟩ := Periods_spec 3600 0 7200 [⟨3600, 1, 0, 0, 5, 5⟩]
    (by decide) (by decide) (by decide)
  rw [h1]
  rfl

/-! ## The web3-index `days` derivation (`api/api.go`) -/

/-- A daily bucket as the web3-index handler reads it from `Periods`:
cumulative native revenue plus the USD rate attached to the row. -/
structure W3Row where
  timestamp : Int
  revenue : Nat
  usdRate : Rat
deriving Repr, DecidableEq

/-- `time.Date(y-2, m, 1, ...)`: the start date of the web3-index `days`
query — the first of the current month, two years before now. -/
def web3DaysStart (year month : Int) : Int × Int × Int := (year - 2, month, 1)

/-- The `days` loop of `handleGetWeb3Index` in `api/api.go`: one entry per
daily bucket, in order, each carrying that bucket's own timestamp and its
cumulative revenue converted to USD (`(revenue / 10^24) · usdRate`; the
`InexactFloat64` conversion at the JSON edge is outside the model). -/
def web3IndexDays (days : List W3Row) : List (Int × Rat) :=
  days.foldl (fun acc d => acc ++ [(d.timestamp, scDecimal d.revenue * d.usdRate)]) []

theorem foldl_append_map {α β : Type} (f : α → β) :
    ∀ (l : List α) (acc : List β), l.foldl (fun a x => a ++ [f x]) acc = acc ++ l.map f := by
  intro l
  induction l with
  | nil => intro acc; simp
  | cons x rest ih => intro acc; simp [ih]

/-- Claim C9 counterexample: with cumulative daily buckets `[10, 15, 15, 40]`
whole coins at days `D, D+1, D+2, D+3` (`D = 0`, 86400-second days, USD rate
`1`), the handler emits the cumulative values `[{D,10},{D+1,15},{D+2,15},
{D+3,40}]`; the claimed delta entry `{D+1, 5}` does not appear. -/
theorem web3IndexDays_counterexample :
    web3IndexDays [⟨0, 10 * 10 ^ 24, 1⟩, ⟨86400, 15 * 10 ^ 24, 1⟩,
        ⟨172800, 15 * 10 ^ 24, 1⟩, ⟨259200, 40 * 10 ^ 24, 1⟩] =
      [(0, 10), (86400, 15), (172800, 15), (259200, 40)] ∧
    ((86400 : Int), (5 : Rat)) ∉ web3IndexDays [⟨0, 10 * 10 ^ 24, 1⟩, ⟨86400, 15 * 10 ^ 24, 1⟩,
        ⟨172800, 15 * 10 ^ 24, 1⟩, ⟨259200, 40 * 10 ^ 24, 1⟩] := by
  constructor
  · with_unfolding_all decide
  · with_unfolding_all decide

/-- Claim C9 (amended): the `api/api.go` handler builds `days` from daily
buckets beginning on the first of the month two years before now, and each
emitted entry is that day's **cumulative** USD revenue (`(revenue / 10^24) ·
usdRate`) timestamped at the bucket's own day — not the delta between
adjacent days. -/
theorem web3IndexDays_cumulative (days : List W3Row) (year month : Int) :
    web3IndexDays days =
      days.map (fun d => (d.timestamp, scDecimal d.revenue * d.usdRate)) ∧
    web3DaysStart year month = (year - 2, month, 1) := by
  constructor
  · rw [web3IndexDays, foldl_append_map]
    rfl
  · rfl

/-! ## `handleGetRevenuePeriods` (`api/api.go`)

Request timestamps are modelled as `Nat` unix seconds in UTC (zero meaning
`time.Time.IsZero`); the civil-calendar conversions mirror `time.Date` /
`AddDate` for the post-1970 instants the API handles. -/

/-- Civil date from days since the unix epoch (proleptic Gregorian). -/
def civilFromDays (z0 : Int) : Int × Int × Int :=
  let z := z0 + 719468
  let era := (if 0 ≤ z then z else z - 146096) / 146097
  let doe := z - era * 146097
  let yoe := (doe - doe / 1460 + doe / 36524 - doe / 146096) / 365
  let y := yoe + era * 400
  let doy := doe - (365 * yoe + yoe / 4 - yoe / 100)
  let mp := (5 * doy + 2) / 153
  let d := doy - (153 * mp + 2) / 5 + 1
  let m := mp + (if mp < 10 then 3 else -9)
  (if m ≤ 2 then y + 1 else y, m, d)

/-- Days since the unix epoch of a civil date (month may overflow twelve, as
`time.Date` normalizes it). -/
def daysFromCivil (y0 m d : Int) : Int :=
  let y := if m ≤ 2 then y0 - 1 else y0
  let era := (if 0 ≤ y then y else y - 399) / 400
  let yoe := y - era * 400
  let mp := (m + 9) % 12
  let doy := (153 * mp + 2) / 5 + d - 1
  let doe := yoe * 365 + yoe / 4 - yoe / 100 + doy
  era * 146097 + doe - 719468

/-- The `start`/`end` normalization switch of `handleGetRevenuePeriods`:
`hourly` truncates to the hour (end: next hour boundary after `end`);
`daily` floors to midnight (end: next midnight); `weekly` floors to the
Sunday of the week (end: following Sunday); `monthly` floors to the first of
the month (end: first of the next month).  `none` is the `default` branch
(invalid period). -/
def normalizeRange (period : String) (startT endT : Nat) : Option (Nat × Nat) :=
  if period = "hourly" then
    some (3600 * (startT / 3600), 3600 * ((endT + 3600) / 3600))
  else if period = "daily" then
    some (86400 * (startT / 86400), 86400 * (endT / 86400) + 86400)
  else if period = "weekly" then
    let sd := startT / 86400
    let ed := endT / 86400
    some (86400 * (sd - (sd + 4) % 7), 86400 * (ed + (7 - (ed + 4) % 7)))
  else if period = "monthly" then
    let s := civilFromDays (startT / 86400)
    let e := civilFromDays (endT / 86400)
    some ((86400 * daysFromCivil s.1 s.2.1 1).toNat,
      (86400 * daysFromCivil e.1 (e.2.1 + 1) 1).toNat)
  else none

/-- A response written to the `jape.Context`: either `c.Error(err, status)`
or `c.Encode(body)`. -/
inductive ApiResponse where
  | errorResp (status : Nat) (msg : String)
  | encodeResp (body : List PeriodRow)
deriving Repr, DecidableEq

/-- `handleGetRevenuePeriods`, with the stats provider's `Periods` passed in
as `periodsFn` and the decoded query parameters as arguments (a zero time
means the parameter was absent).  The handler writes the listed responses to
the request, in order: note that the `end.Before(start)` branch calls
`c.Error` but does not return, so the handler continues into the period
switch and the `Periods` call. -/
def handleGetRevenuePeriods
    (periodsFn : Nat → Nat → String → Except String (List PeriodRow))
    (period : String) (startT endT : Nat) : List ApiResponse :=
  if startT = 0 ∨ endT = 0 then [.errorResp 400 "start and end are required"]
  else
    let pre : List ApiResponse :=
      if endT < startT then [.errorResp 400 "end must be after start"] else []
    match normalizeRange period startT endT with
    | none => pre ++ [.errorResp 400 "invalid period"]
    | some se =>
      match periodsFn se.1 se.2 period with
      | .error err => pre ++ [.errorResp 500 err]
      | .ok rows => pre ++ [.encodeResp rows]

/-- Claim C10: when both `start` and `end` are supplied but `end` is strictly
before `start`, the handler writes the 400 "end must be after start" error
but does not return early: it normalizes the range and calls `Periods`
anyway, writing a second response body (the encoded rows, or a 500 error)
on the same request. -/
theorem handleGetRevenuePeriods_no_return
    (periodsFn : Nat → Nat → String → Except String (List PeriodRow))
    (period : String) (startT endT : Nat) (se : Nat × Nat)
    (h1 : startT ≠ 0) (h2 : endT ≠ 0) (h3 : endT < startT)
    (hn : normalizeRange period startT endT = some se) :
    handleGetRevenuePeriods periodsFn period startT endT =
      ApiResponse.errorResp 400 "end must be after start" ::
        (match periodsFn se.1 se.2 period with
         | .error err => [ApiResponse.errorResp 500 err]
         | .ok rows => [ApiResponse.encodeResp rows]) := by
  rw [handleGetRevenuePeriods, if_neg (by tauto)]
  simp only [hn, if_pos h3]
  cases periodsFn se.1 se.2 period <;> rfl

/-- Witness for claim C10 at a concrete request: `period = "hourly"`,
`start = 7200`, `end = 3600` (end before start), with a `Periods` stub
returning no rows: the handler writes the 400 error and then an encoded
(second) response. -/
theorem handleGetRevenuePeriods_no_return_witness :
    handleGetRevenuePeriods (fun _ _ _ => Except.ok []) "hourly" 7200 3600 =
      [ApiResponse.errorResp 400 "end must be after start", ApiResponse.encodeResp []] := by
  have h := handleGetRevenuePeriods_no_return (fun _ _ _ => Except.ok []) "hourly"
    7200 3600 (7200, 7200) (by decide) (by decide) (by decide) (by decide)
  simpa using h

/-! ## The store state machine (`persist/sqlite` consensus processing)

Block ids, contract ids and siacoin output ids are modelled as `Nat`;
`txn.FileContractID(i)` is the deterministic child id of the transaction and
index, modelled as the injective pairing `Nat.pair txid i`.  `maturityDelay`
is `stypes.MaturityDelay = 144`. -/

/-- `stypes.MaturityDelay` on the release network. -/
def maturityDelay : Nat := 144

/-- `math.MaxInt64`, the clamp for `expirationHeight`. -/
def maxInt64 : Nat := 2 ^ 63 - 1

/-- A row of the `blocks` table. -/
structure StoredBlock where
  dbId : Nat
  blockId : Nat
  height : Nat
  timestamp : Int
deriving Repr, DecidableEq

/-- A row of `hourly_contract_stats` (the twelve-column schema written by
`updateContractStats`). -/
structure StatsRow where
  timestamp : Int
  active : Int
  valid : Int
  missed : Int
  revenue : Values
  payout : Values
deriving Repr, DecidableEq

/-- A row of `market_data`. -/
structure MarketRow where
  timestamp : Int
  usd : Rat
  eur : Rat
  btc : Rat
deriving Repr, DecidableEq

/-- The durable store: the tables of `init.sql` plus the global cursor.
`nextDbId` models the SQLite rowid allocator for `blocks`. -/
structure Store where
  blocks : List StoredBlock
  contracts : List ContractRow
  hourlyStats : List StatsRow
  market : List MarketRow
  lastChange : Option Nat
  lastHeight : Nat
  nextDbId : Nat
deriving Repr, DecidableEq

/-- A file contract revision in a transaction. -/
structure Revision where
  parentId : Nat
  newValidProofOutputs : List Nat
  newMissedProofOutputs : List Nat
deriving Repr, DecidableEq

/-- A transaction, restricted to the fields the indexer reads. -/
structure Tx where
  txid : Nat
  siacoinInputs : List Nat
  siacoinOutputs : List Nat
  minerFees : List Nat
  fileContracts : List FileContract
  fileContractRevisions : List Revision
  storageProofs : List Nat
deriving Repr, DecidableEq

/-- A block of the consensus stream. -/
structure Block where
  blockId : Nat
  timestamp : Int
  transactions : List Tx
deriving Repr, DecidableEq

/-- A consensus change: reverted blocks, applied blocks and the spent-UTXO
value map extracted from the applied diffs (`SiacoinOutputDiffs` with
direction `Revert`). -/
structure ConsensusChange where
  id : Nat
  blockHeight : Nat
  revertedBlocks : List Block
  appliedBlocks : List Block
  spentUtxo : List (Nat × Nat)
deriving Repr, DecidableEq

/-- `revertBlock`: look the block row up by block id (an absent row is an
error), clear `proof_block_id` references to it, delete the contracts
anchored to it, and delete the block row. -/
def revertBlock (st : Store) (blockId : Nat) : Except String Store :=
  match st.blocks.find? (fun b => decide (b.blockId = blockId)) with
  | none => .error "failed to get block id"
  | some b =>
    let contracts1 := st.contracts.map fun c =>
      if c.proofBlockDbId = some b.dbId then { c with proofBlockDbId := none } else c
    let contracts2 := contracts1.filter fun c => decide (c.blockDbId ≠ b.dbId)
    .ok { st with
      contracts := contracts2,
      blocks := st.blocks.filter fun bb => decide (bb.dbId ≠ b.dbId) }

/-- `addBlock`: insert a block row (`block_id` and `height` are UNIQUE),
returning the fresh rowid. -/
def addBlock (st : Store) (blockId height : Nat) (timestamp : Int) :
    Except String (Nat × Store) :=
  if st.blocks.any (fun b => decide (b.blockId = blockId) || decide (b.height = height)) then
    .error "UNIQUE constraint failed: blocks"
  else
    .ok (st.nextDbId, { st with
      blocks := st.blocks ++ [⟨st.nextDbId, blockId, height, timestamp⟩],
      nextDbId := st.nextDbId + 1 })

/-- `addActiveContract`: compute the initial host payouts (zero without the
two-output layout), clamp `expirationHeight` to `MaxInt64`, and insert the
row (`contract_id` is UNIQUE). -/
def addActiveContract (st : Store) (id : Nat) (fc : FileContract) (blockDbId : Nat)
    (initialValidRevenue initialMissedRevenue : Nat) : Except String Store :=
  let initialValid := if 2 ≤ fc.validProofOutputs.length then fc.validHostPayout else 0
  let initialMissed := if 2 ≤ fc.missedProofOutputs.length then fc.missedHostPayout else 0
  let expirationHeight := min fc.windowEnd maxInt64
  if st.contracts.any (fun c => decide (c.contractId = id)) then
    .error "UNIQUE constraint failed: active_contracts.contract_id"
  else
    .ok { st with contracts := st.contracts ++
      [⟨id, blockDbId, initialValid, initialMissed, initialValid, initialMissed,
        initialValidRevenue, initialMissedRevenue, expirationHeight, none⟩] }

/-- `reviseContract`: update the current payout values (an UPDATE matching no
row is not an error). -/
def reviseContract (st : Store) (id validPayout missedPayout : Nat) : Store :=
  { st with contracts := st.contracts.map fun c =>
      if c.contractId = id then { c with finalValid := validPayout, finalMissed := missedPayout }
      else c }

/-- `proveContract`: set `proof_block_id` (`UPDATE … RETURNING id` errors when
the contract does not exist). -/
def proveContract (st : Store) (id blockDbId : Nat) : Except String Store :=
  if st.contracts.any (fun c => decide (c.contractId = id)) then
    .ok { st with contracts := st.contracts.map fun c =>
        if c.contractId = id then { c with proofBlockDbId := some blockDbId } else c }
  else .error "sql: no rows in result set"

/-- `getExchangeRate`: the market row minimizing `ABS(date_created − t)`
(first such row in table order), an error when the table is empty. -/
def getExchangeRate (st : Store) (timestamp : Int) : Except String (Rat × Rat × Rat) :=
  match st.market.foldl
      (fun best row =>
        match best with
        | none => some row
        | some b =>
          if (row.timestamp - timestamp).natAbs < (b.timestamp - timestamp).natAbs then some row
          else some b)
      none with
  | none => .error "no exchange rate data"
  | some r => .ok (r.usd, r.eur, r.btc)

/-- `missedContracts(height)`: active rows joined to their anchor block with
`expiration_height ≤ height` and no recorded proof. -/
def missedContracts (st : Store) (height : Nat) : List ContractRow :=
  st.contracts.filter fun c =>
    decide (c.expirationHeight ≤ height) && c.proofBlockDbId.isNone &&
      st.blocks.any (fun b => decide (b.dbId = c.blockDbId))

/-- `validContracts(height)`: active rows joined to their anchor block and to
their proof block, with the proof block's height at most `height`. -/
def validContracts (st : Store) (height : Nat) : List ContractRow :=
  st.contracts.filter fun c =>
    st.blocks.any (fun b => decide (b.dbId = c.blockDbId)) &&
      (match c.proofBlockDbId with
       | none => false
       | some pid => st.blocks.any fun pb => decide (pb.dbId = pid) && decide (pb.height ≤ height))

/-- Modelled from the spec: the `getMetrics` helper called by
`updateContractStats` is repository code not included under `src/` (only its
caller is); per the spec it returns the running totals of the most recent
stats row at or before the timestamp, falling back to zeros. -/
def getMetrics (st : Store) (timestamp : Int) : StatsRow :=
  match st.hourlyStats.foldl
      (fun best row =>
        if row.timestamp ≤ timestamp then
          match best with
          | none => some row
          | some b => if b.timestamp < row.timestamp then some row else some b
        else best)
      none with
  | none => ⟨timestamp, 0, 0, 0, Values.zero, Values.zero⟩
  | some r => r

/-- The upsert of `hourly_contract_stats` keyed by `date_created`. -/
def upsertStats (rows : List StatsRow) (row : StatsRow) : List StatsRow :=
  if rows.any (fun r => decide (r.timestamp = row.timestamp)) then
    rows.map fun r => if r.timestamp = row.timestamp then row else r
  else rows ++ [row]

/-- `updateContractStats`: skip when all three counter deltas are zero; read
the running totals at or before the timestamp, add the deltas, reject
negative counters, and upsert the row keyed by the block timestamp. -/
def updateContractStats (st : Store) (active valid missed : Int)
    (revenue payout : Values) (timestamp : Int) : Except String Store :=
  if active = 0 ∧ valid = 0 ∧ missed = 0 then .ok st
  else
    let state := getMetrics st timestamp
    let newActive := state.active + active
    let newValid := state.valid + valid
    let newMissed := state.missed + missed
    if newActive < 0 then .error "invalid active contract count"
    else if newValid < 0 then .error "invalid valid contract count"
    else if newMissed < 0 then .error "invalid missed contract count"
    else
      let row := StatsRow.mk timestamp newActive newValid newMissed
        (state.revenue.add revenue) (state.payout.add payout)
      .ok { st with hourlyStats := upsertStats st.hourlyStats row }

/-- `deleteExpired(height)`: delete contracts with
`expiration_height ≤ height`, then contracts whose proof block's height is at
most `height`. -/
def deleteExpired (st : Store) (height : Nat) : Store :=
  let contracts1 := st.contracts.filter fun c => decide (¬(c.expirationHeight ≤ height))
  { st with contracts := contracts1.filter fun c =>
      !(match c.proofBlockDbId with
        | some pid => st.blocks.any fun b => decide (b.dbId = pid) && decide (b.height ≤ height)
        | none => false) }

/-- `setLastChange`: persist the cursor. -/
def setLastChange (st : Store) (ccId : Nat) (height : Nat) : Store :=
  { st with lastChange := some ccId, lastHeight := height }

/-- Look a spent output's value up in the spent-UTXO map (an absent entry is
fatal: the diffs are inconsistent with the transactions). -/
def lookupSpent (spent : List (Nat × Nat)) (id : Nat) : Option Nat :=
  (spent.find? (fun p => decide (p.1 = id))).map Prod.snd

/-- Collect the values of a transaction's siacoin inputs from the spent-UTXO
map; a missing value panics, aborting the transaction. -/
def collectInputs (spent : List (Nat × Nat)) : List Nat → Except String (List Nat)
  | [] => .ok []
  | pid :: rest =>
    match lookupSpent spent pid with
    | none => .error "missing spent utxo value"
    | some v =>
      match collectInputs spent rest with
      | .error e => .error e
      | .ok vs => .ok (v :: vs)

/-- The contract-formation loop of a transaction: each contract gets the
deterministic child id `(txid, i)` and its estimated renewal revenues, and
increments the `active` counter. -/
def applyFormations (inputs outputs : List Nat) (fees txid numContracts blockDbId : Nat) :
    Store → Nat → List (Nat × FileContract) → Except String (Store × Nat)
  | st, active, [] => .ok (st, active)
  | st, active, (i, fc) :: rest =>
    let revs := formationRevenues inputs outputs fees numContracts fc
    match addActiveContract st (Nat.pair txid i) fc blockDbId revs.1 revs.2 with
    | .error e => .error e
    | .ok st1 =>
      applyFormations inputs outputs fees txid numContracts blockDbId st1 (active + 1) rest

/-- The revision loop of a transaction: a side with fewer than two new proof
outputs leaves that payout at zero. -/
def applyRevisions (st : Store) (revisions : List Revision) : Store :=
  revisions.foldl
    (fun s r =>
      let validPayout := if 2 ≤ r.newValidProofOutputs.length then r.newValidProofOutputs.getD 1 0
        else 0
      let missedPayout := if 2 ≤ r.newMissedProofOutputs.length then r.newMissedProofOutputs.getD 1 0
        else 0
      reviseContract s r.parentId validPayout missedPayout)
    st

/-- The storage-proof loop of a transaction. -/
def applyProofs (blockDbId : Nat) : Store → List Nat → Except String Store
  | st, [] => .ok st
  | st, pid :: rest =>
    match proveContract st pid blockDbId with
    | .error e => .error e
    | .ok st1 => applyProofs blockDbId st1 rest

/-- Processing of one transaction inside an applied block: collect input
values, then formations, revisions and storage proofs; returns the number of
contracts formed. -/
def applyTransaction (spent : List (Nat × Nat)) (blockDbId : Nat) (st : Store) (tx : Tx) :
    Except String (Store × Nat) :=
  match collectInputs spent tx.siacoinInputs with
  | .error e => .error e
  | .ok inputs =>
    let outputs := tx.siacoinOutputs
    let fees := sumC tx.minerFees
    match applyFormations inputs outputs fees tx.txid tx.fileContracts.length blockDbId
        st 0 tx.fileContracts.enum with
    | .error e => .error e
    | .ok (st1, active) =>
      let st2 := applyRevisions st1 tx.fileContractRevisions
      match applyProofs blockDbId st2 tx.storageProofs with
      | .error e => .error e
      | .ok st3 => .ok (st3, active)

/-- The transaction loop of an applied block, accumulating `active`. -/
def applyTxs (spent : List (Nat × Nat)) (blockDbId : Nat) :
    Store → Nat → List Tx → Except String (Store × Nat)
  | st, active, [] => .ok (st, active)
  | st, active, tx :: rest =>
    match applyTransaction spent blockDbId st tx with
    | .error e => .error e
    | .ok (st1, a) => applyTxs spent blockDbId st1 (active + a) rest

/-- Applying one block at the given height: add the block row, process its
transactions, then — above the maturity delay — fetch the nearest exchange
rate, credit the matured missed and valid contracts, and update the hourly
bucket at the block's timestamp. -/
def applyBlock (spent : List (Nat × Nat)) (st : Store) (b : Block) (height : Nat) :
    Except String Store :=
  match addBlock st b.blockId height b.timestamp with
  | .error e => .error e
  | .ok (blockDbId, st1) =>
    match applyTxs spent blockDbId st1 0 b.transactions with
    | .error e => .error e
    | .ok (st2, active) =>
      if maturityDelay < height then
        match getExchangeRate st2 b.timestamp with
        | .error e => .error e
        | .ok rates =>
          let matured := height - maturityDelay
          let expired := missedContracts st2 matured
          let successful := validContracts st2 matured
          let totals := maturationTotals rates.1 rates.2.1 rates.2.2 expired successful
          updateContractStats st2
            ((active : Int) - successful.length - expired.length)
            successful.length expired.length totals.1 totals.2 b.timestamp
      else
        updateContractStats st2 (active : Int) 0 0 Values.zero Values.zero b.timestamp

/-- The applied-block loop, incrementing the height after each block. -/
def applyBlocks (spent : List (Nat × Nat)) : Store → Nat → List Block → Except String Store
  | st, _, [] => .ok st
  | st, height, b :: rest =>
    match applyBlock spent st b height with
    | .error e => .error e
    | .ok st1 => applyBlocks spent st1 (height + 1) rest

/-- The revert loop (Step A). -/
def revertBlocks : Store → List Block → Except String Store
  | st, [] => .ok st
  | st, b :: rest =>
    match revertBlock st b.blockId with
    | .error e => .error e
    | .ok st1 => revertBlocks st1 rest

/-- `ProcessConsensusChange`, inside one store transaction: revert, apply
from `baseHeight = tipHeight − |appliedBlocks| + 1`, sweep the expired
contracts, and persist the cursor. -/
def processConsensusChange (st : Store) (cc : ConsensusChange) : Except String Store :=
  match revertBlocks st cc.revertedBlocks with
  | .error e => .error e
  | .ok st1 =>
    match applyBlocks cc.spentUtxo st1 (cc.blockHeight + 1 - cc.appliedBlocks.length)
        cc.appliedBlocks with
    | .error e => .error e
    | .ok st2 =>
      let st3 := if maturityDelay < cc.blockHeight then
          deleteExpired st2 (cc.blockHeight - maturityDelay)
        else st2
      .ok (setLastChange st3 cc.id cc.blockHeight)

/-- The transaction wrapper (`Store.transaction` / `doTransaction`): on
success the produced state is committed; on any error the transaction is
rolled back and the store is unchanged (the indexer then panics and the
change is retried from the persisted cursor after restart). -/
def runChange (st : Store) (cc : ConsensusChange) : Store :=
  match processConsensusChange st cc with
  | .ok st1 => st1
  | .error _ => st

/-- A sequence of consensus changes, processed in order. -/
def runChanges (st : Store) (ccs : List ConsensusChange) : Store :=
  ccs.foldl runChange st

/-! ### Field-preservation lemmas for the store operations -/

theorem revertBlock_ok_fields {st : Store} {bid : Nat} {st1 : Store}
    (h : revertBlock st bid = .ok st1) :
    st1.hourlyStats = st.hourlyStats ∧ st1.market = st.market ∧
      st1.nextDbId = st.nextDbId ∧ st1.lastChange = st.lastChange ∧
      st1.lastHeight = st.lastHeight ∧
      (∀ b ∈ st1.blocks, b ∈ st.blocks) ∧
      (∀ c ∈ st1.contracts, ∃ c0 ∈ st.contracts,
        c = c0 ∨ c = { c0 with proofBlockDbId := none }) := by
  rw [revertBlock] at h
  cases hf : st.blocks.find? (fun b => decide (b.blockId = bid)) with
  | none => rw [hf] at h; exact absurd h (by simp)
  | some b =>
    rw [hf] at h
    have he := Except.ok.inj h
    subst he
    refine ⟨rfl, rfl, rfl, rfl, rfl, ?_, ?_⟩
    · intro bb hbb
      exact (List.mem_filter.mp hbb).1
    · intro c hc
      have hc1 := List.mem_filter.mp hc
      obtain ⟨c0, hc0, hmap⟩ := List.mem_map.mp hc1.1
      refine ⟨c0, hc0, ?_⟩
      by_cases hp : c0.proofBlockDbId = some b.dbId
      · right
        rw [← hmap, if_pos hp]
      · left
        rw [← hmap, if_neg hp]

theorem addBlock_ok_fields {st : Store} {bid hgt : Nat} {ts : Int} {d : Nat} {st1 : Store}
    (h : addBlock st bid hgt ts = .ok (d, st1)) :
    st1.contracts = st.contracts ∧ st1.hourlyStats = st.hourlyStats ∧
      st1.market = st.market ∧ st1.lastChange = st.lastChange ∧
      st1.lastHeight = st.lastHeight ∧
      st1.blocks = st.blocks ++ [⟨st.nextDbId, bid, hgt, ts⟩] ∧
      d = st.nextDbId ∧ st1.nextDbId = st.nextDbId + 1 := by
  rw [addBlock] at h
  by_cases hdup : st.blocks.any (fun b => decide (b.blockId = bid) || decide (b.height = hgt))
  · rw [if_pos hdup] at h
    exact absurd h (by simp)
  · rw [if_neg hdup] at h
    have he := Except.ok.inj h
    rw [Prod.mk.injEq] at he
    obtain ⟨h1, h2⟩ := he
    subst h1
    rw [← h2]
    exact ⟨rfl, rfl, rfl, rfl, rfl, rfl, rfl, rfl⟩

theorem addActiveContract_ok_fields {st : Store} {id : Nat} {fc : FileContract}
    {blockDbId ivr imr : Nat} {st1 : Store}
    (h : addActiveContract st id fc blockDbId ivr imr = .ok st1) :
    st1.blocks = st.blocks ∧ st1.hourlyStats = st.hourlyStats ∧
      st1.market = st.market ∧ st1.nextDbId = st.nextDbId ∧
      st1.lastChange = st.lastChange ∧ st1.lastHeight = st.lastHeight ∧
      st1.contracts = st.contracts ++
        [⟨id, blockDbId,
          (if 2 ≤ fc.validProofOutputs.length then fc.validHostPayout else 0),
          (if 2 ≤ fc.missedProofOutputs.length then fc.missedHostPayout else 0),
          (if 2 ≤ fc.validProofOutputs.length then fc.validHostPayout else 0),
          (if 2 ≤ fc.missedProofOutputs.length then fc.missedHostPayout else 0),
          ivr, imr, min fc.windowEnd maxInt64, none⟩] := by
  rw [addActiveContract] at h
  by_cases hdup : st.contracts.any (fun c => decide (c.contractId = id))
  · rw [if_pos hdup] at h
    exact absurd h (by simp)
  · rw [if_neg hdup] at h
    have he := Except.ok.inj h
    rw [← he]
    exact ⟨rfl, rfl, rfl, rfl, rfl, rfl, rfl⟩

theorem proveContract_ok_fields {st : Store} {id blockDbId : Nat} {st1 : Store}
    (h : proveContract st id blockDbId = .ok st1) :
    st1.blocks = st.blocks ∧ st1.hourlyStats = st.hourlyStats ∧
      st1.market = st.market ∧ st1.nextDbId = st.nextDbId ∧
      st1.lastChange = st.lastChange ∧ st1.lastHeight = st.lastHeight ∧
      st1.contracts = st.contracts.map (fun c =>
        if c.contractId = id then { c with proofBlockDbId := some blockDbId } else c) := by
  rw [proveContract] at h
  by_cases hex : st.contracts.any (fun c => decide (c.contractId = id))
  · rw [if_pos hex] at h
    have he := Except.ok.inj h
    rw [← he]
    exact ⟨rfl, rfl, rfl, rfl, rfl, rfl, rfl⟩
  · rw [if_neg hex] at h
    exact absurd h (by simp)

theorem reviseContract_fields (st : Store) (id vp mp : Nat) :
    (reviseContract st id vp mp).blocks = st.blocks ∧
      (reviseContract st id vp mp).hourlyStats = st.hourlyStats ∧
      (reviseContract st id vp mp).market = st.market ∧
      (reviseContract st id vp mp).nextDbId = st.nextDbId ∧
      (reviseContract st id vp mp).lastChange = st.lastChange ∧
      (reviseContract st id vp mp).lastHeight = st.lastHeight ∧
      (reviseContract st id vp mp).contracts = st.contracts.map (fun c =>
        if c.contractId = id then { c with finalValid := vp, finalMissed := mp } else c) :=
  ⟨rfl, rfl, rfl, rfl, rfl, rfl, rfl⟩

theorem applyRevisions_fields (revisions : List Revision) :
    ∀ st : Store,
      (applyRevisions st revisions).blocks = st.blocks ∧
        (applyRevisions st revisions).hourlyStats = st.hourlyStats ∧
        (applyRevisions st revisions).market = st.market ∧
        (applyRevisions st revisions).nextDbId = st.nextDbId ∧
        (applyRevisions st revisions).lastChange = st.lastChange ∧
        (applyRevisions st revisions).lastHeight = st.lastHeight ∧
        (∀ c ∈ (applyRevisions st revisions).contracts, ∃ c0 ∈ st.contracts,
          c.contractId = c0.contractId ∧ c.blockDbId = c0.blockDbId ∧
            c.expirationHeight = c0.expirationHeight ∧
            c.proofBlockDbId = c0.proofBlockDbId) := by
  induction revisions with
  | nil =>
    intro st
    refine ⟨rfl, rfl, rfl, rfl, rfl, rfl, ?_⟩
    intro c hc
    exact ⟨c, hc, rfl, rfl, rfl, rfl⟩
  | cons r rest ih =>
    intro st
    have hstep : applyRevisions st (r :: rest) =
        applyRevisions (reviseContract st r.parentId
          (if 2 ≤ r.newValidProofOutputs.length then r.newValidProofOutputs.getD 1 0 else 0)
          (if 2 ≤ r.newMissedProofOutputs.length then r.newMissedProofOutputs.getD 1 0 else 0))
          rest := by
      rw [applyRevisions, applyRevisions, List.foldl_cons]
    rw [hstep]
    obtain ⟨hb, hs, hm, hn, hlc, hlh, hcs⟩ := ih (reviseContract st r.parentId _ _)
    refine ⟨hb, hs, hm, hn, hlc, hlh, ?_⟩
    intro c hc
    obtain ⟨c0, hc0, h1, h2, h3, h4⟩ := hcs c hc
    obtain ⟨c1, hc1, hmap⟩ := List.mem_map.mp hc0
    refine ⟨c1, hc1, ?_, ?_, ?_, ?_⟩ <;>
      (by_cases hid : c1.contractId = r.parentId
       · rw [← hmap, if_pos hid] at h1 h2 h3 h4
         simp_all
       · rw [← hmap, if_neg hid] at h1 h2 h3 h4
         simp_all)

theorem applyProofs_ok_fields {blockDbId : Nat} :
    ∀ {proofs : List Nat} {st st1 : Store}, applyProofs blockDbId st proofs = .ok st1 →
      st1.blocks = st.blocks ∧ st1.hourlyStats = st.hourlyStats ∧
        st1.market = st.market ∧ st1.nextDbId = st.nextDbId ∧
        st1.lastChange = st.lastChange ∧ st1.lastHeight = st.lastHeight ∧
        (∀ c ∈ st1.contracts, ∃ c0 ∈ st.contracts,
          c.contractId = c0.contractId ∧ c.blockDbId = c0.blockDbId ∧
            c.expirationHeight = c0.expirationHeight ∧ c.finalValid = c0.finalValid ∧
            c.finalMissed = c0.finalMissed ∧
            (c.proofBlockDbId = c0.proofBlockDbId ∨ c.proofBlockDbId = some blockDbId)) := by
  intro proofs
  induction proofs with
  | nil =>
    intro st st1 h
    have he := Except.ok.inj h
    rw [← he]
    refine ⟨rfl, rfl, rfl, rfl, rfl, rfl, ?_⟩
    intro c hc
    exact ⟨c, hc, rfl, rfl, rfl, rfl, rfl, Or.inl rfl⟩
  | cons pid rest ih =>
    intro st st1 h
    rw [applyProofs] at h
    cases hp : proveContract st pid blockDbId with
    | error e => rw [hp] at h; exact absurd h (by simp)
    | ok st2 =>
      rw [hp] at h
      obtain ⟨hb2, hs2, hm2, hn2, hlc2, hlh2, hcs2⟩ := proveContract_ok_fields hp
      obtain ⟨hb, hs, hm, hn, hlc, hlh, hcs⟩ := ih h
      refine ⟨hb.trans hb2, hs.trans hs2, hm.trans hm2, hn.trans hn2,
        hlc.trans hlc2, hlh.trans hlh2, ?_⟩
      intro c hc
      obtain ⟨c0, hc0, h1, h2, h3, h4, h5, h6⟩ := hcs c hc
      rw [hcs2] at hc0
      obtain ⟨c1, hc1, hmap⟩ := List.mem_map.mp hc0
      refine ⟨c1, hc1, ?_, ?_, ?_, ?_, ?_, ?_⟩ <;>
        (by_cases hid : c1.contractId = pid
         · rw [← hmap, if_pos hid] at h1 h2 h3 h4 h5 h6
           simp_all
         · rw [← hmap, if_neg hid] at h1 h2 h3 h4 h5 h6
           simp_all)

theorem applyFormations_ok_fields {inputs outputs : List Nat}
    {fees txid numContracts blockDbId : Nat} :
    ∀ {fcs : List (Nat × FileContract)} {st : Store} {active : Nat} {st1 : Store} {active1 : Nat},
      applyFormations inputs outputs fees txid numContracts blockDbId st active fcs =
        .ok (st1, active1) →
      st1.blocks = st.blocks ∧ st1.hourlyStats = st.hourlyStats ∧
        st1.market = st.market ∧ st1.nextDbId = st.nextDbId ∧
        st1.lastChange = st.lastChange ∧ st1.lastHeight = st.lastHeight ∧
        active1 = active + fcs.length := by
  intro fcs
  induction fcs with
  | nil =>
    intro st active st1 active1 h
    have he := Except.ok.inj h
    rw [Prod.mk.injEq] at he
    obtain ⟨h1, h2⟩ := he
    rw [← h1, ← h2]
    exact ⟨rfl, rfl, rfl, rfl, rfl, rfl, rfl⟩
  | cons p rest ih =>
    intro st active st1 active1 h
    obtain ⟨i, fc⟩ := p
    rw [applyFormations] at h
    cases ha : addActiveContract st (Nat.pair txid i) fc blockDbId
        (formationRevenues inputs outputs fees numContracts fc).1
        (formationRevenues inputs outputs fees numContracts fc).2 with
    | error e => rw [ha] at h; exact absurd h (by simp)
    | ok st2 =>
      rw [ha] at h
      obtain ⟨hb2, hs2, hm2, hn2, hlc2, hlh2, _⟩ := addActiveContract_ok_fields ha
      obtain ⟨hb, hs, hm, hn, hlc, hlh, hact⟩ := ih h
      refine ⟨hb.trans hb2, hs.trans hs2, hm.trans hm2, hn.trans hn2,
        hlc.trans hlc2, hlh.trans hlh2, ?_⟩
      rw [hact]
      simp only [List.length_cons]
      omega

theorem applyTransaction_ok_fields {spent : List (Nat × Nat)} {blockDbId : Nat}
    {st : Store} {tx : Tx} {st1 : Store} {active : Nat}
    (h : applyTransaction spent blockDbId st tx = .ok (st1, active)) :
    st1.blocks = st.blocks ∧ st1.hourlyStats = st.hourlyStats ∧
      st1.market = st.market ∧ st1.nextDbId = st.nextDbId ∧
      st1.lastChange = st.lastChange ∧ st1.lastHeight = st.lastHeight ∧
      active = tx.fileContracts.length := by
  rw [applyTransaction] at h
  cases hi : collectInputs spent tx.siacoinInputs with
  | error e => rw [hi] at h; exact absurd h (by simp)
  | ok inputs =>
    simp only [hi] at h
    cases hf : applyFormations inputs tx.siacoinOutputs (sumC tx.minerFees) tx.txid
        tx.fileContracts.length blockDbId st 0 tx.fileContracts.enum with
    | error e => rw [hf] at h; exact absurd h (by simp)
    | ok p =>
      obtain ⟨st2, a2⟩ := p
      simp only [hf] at h
      cases hp : applyProofs blockDbId (applyRevisions st2 tx.fileContractRevisions)
          tx.storageProofs with
      | error e => rw [hp] at h; exact absurd h (by simp)
      | ok st3 =>
        simp only [hp] at h
        have he := Except.ok.inj h
        rw [Prod.mk.injEq] at he
        obtain ⟨h1, h2⟩ := he
        obtain ⟨fb, fs, fm, fn, flc, flh, fact⟩ := applyFormations_ok_fields hf
        obtain ⟨rb, rs, rm, rn, rlc, rlh, _⟩ :=
          applyRevisions_fields tx.fileContractRevisions st2
        obtain ⟨pb, ps, pm, pn, plc, plh, _⟩ := applyProofs_ok_fields hp
        subst h1
        refine ⟨?_, ?_, ?_, ?_, ?_, ?_, ?_⟩
        · rw [pb, rb, fb]
        · rw [ps, rs, fs]
        · rw [pm, rm, fm]
        · rw [pn, rn, fn]
        · rw [plc, rlc, flc]
        · rw [plh, rlh, flh]
        · rw [← h2, fact]
          simp [List.enum_length]

theorem applyTxs_ok_fields {spent : List (Nat × Nat)} {blockDbId : Nat} :
    ∀ {txs : List Tx} {st : Store} {active : Nat} {st1 : Store} {active1 : Nat},
      applyTxs spent blockDbId st active txs = .ok (st1, active1) →
      st1.blocks = st.blocks ∧ st1.hourlyStats = st.hourlyStats ∧
        st1.market = st.market ∧ st1.nextDbId = st.nextDbId ∧
        st1.lastChange = st.lastChange ∧ st1.lastHeight = st.lastHeight := by
  intro txs
  induction txs with
  | nil =>
    intro st active st1 active1 h
    have he := Except.ok.inj h
    rw [Prod.mk.injEq] at he
    obtain ⟨h1, h2⟩ := he
    rw [← h1]
    exact ⟨rfl, rfl, rfl, rfl, rfl, rfl⟩
  | cons tx rest ih =>
    intro st active st1 active1 h
    rw [applyTxs] at h
    cases ht : applyTransaction spent blockDbId st tx with
    | error e => rw [ht] at h; exact absurd h (by simp)
    | ok p =>
      obtain ⟨st2, a2⟩ := p
      rw [ht] at h
      obtain ⟨tb, tss, tm, tn, tlc, tlh, _⟩ := applyTransaction_ok_fields ht
      obtain ⟨hb, hs, hm, hn, hlc, hlh⟩ := ih h
      exact ⟨hb.trans tb, hs.trans tss, hm.trans tm, hn.trans tn,
        hlc.trans tlc, hlh.trans tlh⟩

theorem updateContractStats_ok_fields {st : Store} {a v m : Int} {rev pay : Values}
    {t : Int} {st1 : Store} (h : updateContractStats st a v m rev pay t = .ok st1) :
    st1.blocks = st.blocks ∧ st1.contracts = st.contracts ∧ st1.market = st.market ∧
      st1.nextDbId = st.nextDbId ∧ st1.lastChange = st.lastChange ∧
      st1.lastHeight = st.lastHeight ∧
      (st1.hourlyStats = st.hourlyStats ∨
        st1.hourlyStats = upsertStats st.hourlyStats
          ⟨t, (getMetrics st t).active + a, (getMetrics st t).valid + v,
            (getMetrics st t).missed + m, (getMetrics st t).revenue.add rev,
            (getMetrics st t).payout.add pay⟩) := by
  rw [updateContractStats] at h
  by_cases hz : a = 0 ∧ v = 0 ∧ m = 0
  · rw [if_pos hz] at h
    have he := Except.ok.inj h
    rw [← he]
    exact ⟨rfl, rfl, rfl, rfl, rfl, rfl, Or.inl rfl⟩
  · rw [if_neg hz] at h
    by_cases h1 : (getMetrics st t).active + a < 0
    · rw [if_pos h1] at h; exact absurd h (by simp)
    · rw [if_neg h1] at h
      by_cases h2 : (getMetrics st t).valid + v < 0
      · rw [if_pos h2] at h; exact absurd h (by simp)
      · rw [if_neg h2] at h
        by_cases h3 : (getMetrics st t).missed + m < 0
        · rw [if_pos h3] at h; exact absurd h (by simp)
        · rw [if_neg h3] at h
          have he := Except.ok.inj h
          rw [← he]
          exact ⟨rfl, rfl, rfl, rfl, rfl, rfl, Or.inr rfl⟩

theorem getExchangeRate_mem {st : Store} {t : Int} {rates : Rat × Rat × Rat}
    (h : getExchangeRate st t = .ok rates) :
    ∃ r ∈ st.market, rates = (r.usd, r.eur, r.btc) := by
  rw [getExchangeRate] at h
  have hfold : ∀ (l : List MarketRow) (acc : Option MarketRow) (r : MarketRow),
      l.foldl (fun best row =>
        match best with
        | none => some row
        | some b =>
          if (row.timestamp - t).natAbs < (b.timestamp - t).natAbs then some row
          else some b) acc = some r → acc = some r ∨ r ∈ l := by
    intro l
    induction l with
    | nil => intro acc r hf; exact Or.inl hf
    | cons x rest ih =>
      intro acc r hf
      rw [List.foldl_cons] at hf
      cases acc with
      | none =>
        rcases ih (some x) r hf with hl | hr
        · exact Or.inr (by simp [Option.some.inj hl])
        · exact Or.inr (List.mem_cons_of_mem x hr)
      | some b =>
        by_cases hc : (x.timestamp - t).natAbs < (b.timestamp - t).natAbs
        · simp only [if_pos hc] at hf
          rcases ih (some x) r hf with hl | hr
          · exact Or.inr (by simp [Option.some.inj hl])
          · exact Or.inr (List.mem_cons_of_mem x hr)
        · simp only [if_neg hc] at hf
          rcases ih (some b) r hf with hl | hr
          · exact Or.inl hl
          · exact Or.inr (List.mem_cons_of_mem x hr)
  cases hf : st.market.foldl (fun best row =>
      match best with
      | none => some row
      | some b =>
        if (row.timestamp - t).natAbs < (b.timestamp - t).natAbs then some row
        else some b) none with
  | none => rw [hf] at h; exact absurd h (by simp)
  | some r =>
    rw [hf] at h
    have he := Except.ok.inj h
    rcases hfold st.market none r hf with hl | hr
    · exact absurd hl (by simp)
    · exact ⟨r, hr, he.symm⟩

/-! ### Claims C5 and C6: transaction atomicity and missing market data -/

/-- Claim C5: processing a consensus change is atomic.  When every step
succeeds the committed state is exactly the state produced by the change —
including `lastProcessedChangeId = change.id` and
`lastProcessedHeight = change.tipHeight` set as the final step — and when any
step fails the transaction is rolled back and the store is exactly as it was
before the change. -/
theorem processConsensusChange_atomic (st : Store) (cc : ConsensusChange) :
    (∀ st1, processConsensusChange st cc = .ok st1 →
      runChange st cc = st1 ∧ st1.lastChange = some cc.id ∧
        st1.lastHeight = cc.blockHeight) ∧
    (∀ e, processConsensusChange st cc = .error e → runChange st cc = st) := by
  constructor
  · intro st1 h
    refine ⟨by rw [runChange, h], ?_⟩
    rw [processConsensusChange] at h
    cases h1 : revertBlocks st cc.revertedBlocks with
    | error e => rw [h1] at h; exact absurd h (by simp)
    | ok s1 =>
      simp only [h1] at h
      cases h2 : applyBlocks cc.spentUtxo s1 (cc.blockHeight + 1 - cc.appliedBlocks.length)
          cc.appliedBlocks with
      | error e => rw [h2] at h; exact absurd h (by simp)
      | ok s2 =>
        simp only [h2] at h
        have he := Except.ok.inj h
        rw [← he]
        exact ⟨rfl, rfl⟩
  · intro e h
    rw [runChange, h]

/-- Witness for claim C5 at a concrete input: the empty change `id = 7` at
tip height `3` commits, setting the cursor. -/
theorem processConsensusChange_atomic_witness :
    runChange ⟨[], [], [], [], none, 0, 0⟩ ⟨7, 3, [], [], []⟩ =
        ⟨[], [], [], [], some 7, 3, 0⟩ ∧
      (⟨[], [], [], [], some 7, 3, 0⟩ : Store).lastChange = some 7 ∧
      (⟨[], [], [], [], some 7, 3, 0⟩ : Store).lastHeight = 3 :=
  (processConsensusChange_atomic ⟨[], [], [], [], none, 0, 0⟩ ⟨7, 3, [], [], []⟩).1
    ⟨[], [], [], [], some 7, 3, 0⟩ rfl

theorem revertBlocks_market :
    ∀ {bs : List Block} {st st1 : Store}, revertBlocks st bs = .ok st1 →
      st1.market = st.market := by
  intro bs
  induction bs with
  | nil =>
    intro st st1 h
    have he := Except.ok.inj h
    rw [← he]
  | cons b rest ih =>
    intro st st1 h
    rw [revertBlocks] at h
    cases hr : revertBlock st b.blockId with
    | error e => rw [hr] at h; exact absurd h (by simp)
    | ok s2 =>
      rw [hr] at h
      obtain ⟨_, hm, _⟩ := revertBlock_ok_fields hr
      exact (ih h).trans hm

/-- Applying one block above the maturity delay with no market data aborts
with an error: the rate fetch for the bucket cannot succeed. -/
theorem applyBlock_noMarket {spent : List (Nat × Nat)} {st : Store} {b : Block}
    {height : Nat} (hm : st.market = []) (hh : maturityDelay < height) :
    ∃ e, applyBlock spent st b height = .error e := by
  rw [applyBlock]
  cases h1 : addBlock st b.blockId height b.timestamp with
  | error e => exact ⟨e, rfl⟩
  | ok p =>
    obtain ⟨blockDbId, st1⟩ := p
    cases h2 : applyTxs spent blockDbId st1 0 b.transactions with
    | error e => exact ⟨e, by simp only [h2]⟩
    | ok q =>
      obtain ⟨st2, active⟩ := q
      have hm1 : st1.market = [] := by
        obtain ⟨_, _, hmkt, _⟩ := addBlock_ok_fields h1
        rw [hmkt, hm]
      have hm2 : st2.market = [] := by
        obtain ⟨_, _, hmkt, _⟩ := applyTxs_ok_fields h2
        rw [hmkt, hm1]
      have hrate : getExchangeRate st2 b.timestamp = .error "no exchange rate data" := by
        rw [getExchangeRate, hm2]
        rfl
      refine ⟨"no exchange rate data", ?_⟩
      simp only [h2, if_pos hh, hrate]

theorem applyBlocks_noMarket {spent : List (Nat × Nat)} :
    ∀ {bs : List Block} {st : Store} {height : Nat}, st.market = [] →
      (∃ k, k < bs.length ∧ maturityDelay < height + k) →
      ∃ e, applyBlocks spent st height bs = .error e := by
  intro bs
  induction bs with
  | nil =>
    intro st height _ hk
    obtain ⟨k, hk1, _⟩ := hk
    simp at hk1
  | cons b rest ih =>
    intro st height hm hk
    rw [applyBlocks]
    cases h1 : applyBlock spent st b height with
    | error e => exact ⟨e, rfl⟩
    | ok st1 =>
      by_cases hh : maturityDelay < height
      · obtain ⟨e, he⟩ := @applyBlock_noMarket spent st b height hm hh
        rw [he] at h1
        exact absurd h1 (by simp)
      · have hm1 : st1.market = [] := by
          rw [applyBlock] at h1
          cases h2 : addBlock st b.blockId height b.timestamp with
          | error e => rw [h2] at h1; exact absurd h1 (by simp)
          | ok p =>
            obtain ⟨blockDbId, st2⟩ := p
            simp only [h2] at h1
            cases h3 : applyTxs spent blockDbId st2 0 b.transactions with
            | error e => rw [h3] at h1; exact absurd h1 (by simp)
            | ok q =>
              obtain ⟨st3, active⟩ := q
              simp only [h3, if_neg hh] at h1
              obtain ⟨_, _, hmkt2, _⟩ := addBlock_ok_fields h2
              obtain ⟨_, _, hmkt3, _⟩ := applyTxs_ok_fields h3
              obtain ⟨_, _, hmkt4, _⟩ := updateContractStats_ok_fields h1
              rw [hmkt4, hmkt3, hmkt2, hm]
        obtain ⟨k, hk1, hk2⟩ := hk
        have hk3 : ∃ k2, k2 < rest.length ∧ maturityDelay < (height + 1) + k2 := by
          cases k with
          | zero => omega
          | succ k2 => exact ⟨k2, by simpa using hk1, by omega⟩
        obtain ⟨e, he⟩ := ih hm1 hk3
        exact ⟨e, by simp only [he]⟩

/-- Claim C6: if a consensus change applies a block above the maturity delay
while no market-data row exists, the indexer aborts the whole change with a
hard error — no mutation of the change is committed and the cursor is not
advanced. -/
theorem missingMarket_aborts (st : Store) (cc : ConsensusChange)
    (hm : st.market = []) (hne : cc.appliedBlocks ≠ [])
    (hh : maturityDelay < cc.blockHeight)
    (hlen : cc.appliedBlocks.length ≤ cc.blockHeight + 1) :
    (∃ e, processConsensusChange st cc = .error e) ∧ runChange st cc = st := by
  have hmain : ∃ e, processConsensusChange st cc = .error e := by
    rw [processConsensusChange]
    cases h1 : revertBlocks st cc.revertedBlocks with
    | error e => exact ⟨e, rfl⟩
    | ok st1 =>
      have hm1 : st1.market = [] := by rw [revertBlocks_market h1, hm]
      have hk : ∃ k, k < cc.appliedBlocks.length ∧
          maturityDelay < (cc.blockHeight + 1 - cc.appliedBlocks.length) + k := by
        refine ⟨cc.appliedBlocks.length - 1, ?_, ?_⟩
        · cases hb : cc.appliedBlocks with
          | nil => exact absurd hb hne
          | cons x xs => simp [hb]
        · have hpos : 0 < cc.appliedBlocks.length := by
            cases hb : cc.appliedBlocks with
            | nil => exact absurd hb hne
            | cons x xs => simp [hb]
          omega
      obtain ⟨e, he⟩ := @applyBlocks_noMarket cc.spentUtxo cc.appliedBlocks st1
        (cc.blockHeight + 1 - cc.appliedBlocks.length) hm1 hk
      exact ⟨e, by simp only [he]⟩
  obtain ⟨e, he⟩ := hmain
  exact ⟨⟨e, he⟩, by rw [runChange, he]⟩

/-- Witness for claim C6 at a concrete input: an empty store (no market
data) and a change applying one empty block at height 145. -/
theorem missingMarket_aborts_witness :
    (∃ e, processConsensusChange ⟨[], [], [], [], none, 0, 0⟩
        ⟨9, 145, [], [⟨50, 100, []⟩], []⟩ = .error e) ∧
      runChange ⟨[], [], [], [], none, 0, 0⟩ ⟨9, 145, [], [⟨50, 100, []⟩], []⟩ =
        ⟨[], [], [], [], none, 0, 0⟩ :=
  missingMarket_aborts ⟨[], [], [], [], none, 0, 0⟩ ⟨9, 145, [], [⟨50, 100, []⟩], []⟩
    rfl (by decide) (by decide) (by decide)

/-! ### Claim C3: reorgs below maturation -/

/-- The direct-path store of the reorg scenario: empty store. -/
def reorgStore : Store := ⟨[], [], [], [], none, 0, 0⟩

/-- Block at height 1 forming one contract (expiration far in the future). -/
def reorgBlockA : Block := ⟨201, 36000, [⟨3, [], [], [], [⟨[0, 100], [0, 100], 90⟩], [], []⟩]⟩

/-- An equivalent block: the same transaction and timestamp, a different
block id (as a re-mined block would have). -/
def reorgBlockB : Block := ⟨202, 36000, [⟨3, [], [], [], [⟨[0, 100], [0, 100], 90⟩], [], []⟩]⟩

/-- The direct change applying `reorgBlockA` at tip height 1. -/
def reorgChange1 : ConsensusChange := ⟨11, 1, [], [reorgBlockA], []⟩

/-- The reorg change: revert `reorgBlockA`, re-apply the equivalent
`reorgBlockB` (still far above the matured tip: `h − K = 0 >
tip − maturityDelay`). -/
def reorgChange2 : ConsensusChange := ⟨12, 1, [reorgBlockA], [reorgBlockB], []⟩

/-- Claim C3 counterexample: applying one block directly leaves the
cumulative `active` total at 1, but applying it, reverting it, and
re-applying the equivalent block leaves `active` at 2 — the stats bucket is
not reverted, and the re-applied formation is counted again, so the two
paths do not agree. -/
theorem reorg_counterexample :
    (getMetrics (runChanges reorgStore [reorgChange1]) 36000).active = 1 ∧
      (getMetrics (runChanges reorgStore [reorgChange1, reorgChange2]) 36000).active = 2 ∧
      (getMetrics (runChanges reorgStore [reorgChange1]) 36000).active ≠
        (getMetrics (runChanges reorgStore [reorgChange1, reorgChange2]) 36000).active := by
  refine ⟨?_, ?_, ?_⟩ <;> with_unfolding_all decide

/-- The post-sweep store invariant at matured height `hgt`: no active
contract expires at or below `hgt`, every recorded proof points below the
rowid watermark and only at blocks above height `hgt`, and all block rowids
are below the watermark.  `deleteExpired(hgt)` establishes it; it is what
makes the maturation passes of re-applied blocks empty. -/
def sweepInv (st : Store) (hgt : Nat) : Prop :=
  (∀ c ∈ st.contracts, hgt < c.expirationHeight) ∧
  (∀ c ∈ st.contracts, ∀ pid, c.proofBlockDbId = some pid →
    pid < st.nextDbId ∧ ∀ b ∈ st.blocks, b.dbId = pid → hgt < b.height) ∧
  (∀ b ∈ st.blocks, b.dbId < st.nextDbId)

theorem revertBlock_sweepInv {st st1 : Store} {bid hgt : Nat}
    (h : revertBlock st bid = .ok st1) (hinv : sweepInv st hgt) : sweepInv st1 hgt := by
  obtain ⟨hstats, hmkt, hnext, hlc, hlh, hblocks, hcontracts⟩ := revertBlock_ok_fields h
  obtain ⟨i1, i2, i3⟩ := hinv
  refine ⟨?_, ?_, ?_⟩
  · intro c hc
    obtain ⟨c0, hc0, hor⟩ := hcontracts c hc
    cases hor with
    | inl he => rw [he]; exact i1 c0 hc0
    | inr he => rw [he]; exact i1 c0 hc0
  · intro c hc pid hp
    obtain ⟨c0, hc0, hor⟩ := hcontracts c hc
    cases hor with
    | inl he =>
      rw [he] at hp
      obtain ⟨hb1, hb2⟩ := i2 c0 hc0 pid hp
      rw [hnext]
      exact ⟨hb1, fun b hb hd => hb2 b (hblocks b hb) hd⟩
    | inr he =>
      rw [he] at hp
      simp at hp
  · intro b hb
    rw [hnext]
    exact i3 b (hblocks b hb)

theorem revertBlocks_stats_sweepInv {hgt : Nat} :
    ∀ {bs : List Block} {st st1 : Store}, revertBlocks st bs = .ok st1 →
      st1.hourlyStats = st.hourlyStats ∧ st1.market = st.market ∧
        (sweepInv st hgt → sweepInv st1 hgt) := by
  intro bs
  induction bs with
  | nil =>
    intro st st1 h
    have he := Except.ok.inj h
    rw [← he]
    exact ⟨rfl, rfl, id⟩
  | cons b rest ih =>
    intro st st1 h
    rw [revertBlocks] at h
    cases hr : revertBlock st b.blockId with
    | error e => rw [hr] at h; exact absurd h (by simp)
    | ok s2 =>
      rw [hr] at h
      obtain ⟨hs2, hm2, _⟩ := revertBlock_ok_fields hr
      obtain ⟨hs, hm, hi⟩ := ih h
      exact ⟨hs.trans hs2, hm.trans hm2,
        fun hinv => hi (revertBlock_sweepInv hr hinv)⟩

theorem addBlock_sweepInv {st st1 : Store} {bid height d hgt : Nat} {ts : Int}
    (h : addBlock st bid height ts = .ok (d, st1)) (hh : hgt < height)
    (hinv : sweepInv st hgt) : sweepInv st1 hgt := by
  obtain ⟨hcon, hstats, hmkt, hlc, hlh, hblocks, hd, hnext⟩ := addBlock_ok_fields h
  obtain ⟨i1, i2, i3⟩ := hinv
  refine ⟨?_, ?_, ?_⟩
  · intro c hc
    rw [hcon] at hc
    exact i1 c hc
  · intro c hc pid hp
    rw [hcon] at hc
    obtain ⟨hb1, hb2⟩ := i2 c hc pid hp
    refine ⟨by omega, ?_⟩
    intro b hb hbd
    rw [hblocks] at hb
    rcases List.mem_append.mp hb with hold | hnew
    · exact hb2 b hold hbd
    · have hbeq : b = ⟨st.nextDbId, bid, height, ts⟩ := by simpa using hnew
      rw [hbeq] at hbd
      simp only at hbd
      omega
  · intro b hb
    rw [hblocks] at hb
    rw [hnext]
    rcases List.mem_append.mp hb with hold | hnew
    · have := i3 b hold
      omega
    · have hbeq : b = ⟨st.nextDbId, bid, height, ts⟩ := by simpa using hnew
      rw [hbeq]
      simp only
      omega

theorem applyTransaction_noform {spent : List (Nat × Nat)} {d : Nat} {st : Store} {tx : Tx}
    {st1 : Store} {active : Nat} (hnf : tx.fileContracts = [])
    (h : applyTransaction spent d st tx = .ok (st1, active)) :
    active = 0 ∧ ∀ c ∈ st1.contracts, ∃ c0 ∈ st.contracts,
      c.expirationHeight = c0.expirationHeight ∧
        (c.proofBlockDbId = c0.proofBlockDbId ∨ c.proofBlockDbId = some d) := by
  have hact : active = tx.fileContracts.length := (applyTransaction_ok_fields h).2.2.2.2.2.2
  refine ⟨by rw [hact, hnf]; rfl, ?_⟩
  rw [applyTransaction] at h
  cases hi : collectInputs spent tx.siacoinInputs with
  | error e => rw [hi] at h; exact absurd h (by simp)
  | ok inputs =>
    simp only [hi] at h
    have henum : tx.fileContracts.enum = [] := by rw [hnf]; rfl
    rw [henum] at h
    have hform : applyFormations inputs tx.siacoinOutputs (sumC tx.minerFees) tx.txid
        tx.fileContracts.length d st 0 [] = .ok (st, 0) := rfl
    simp only [hform] at h
    cases hp : applyProofs d (applyRevisions st tx.fileContractRevisions) tx.storageProofs with
    | error e => rw [hp] at h; exact absurd h (by simp)
    | ok st3 =>
      simp only [hp] at h
      have he := Except.ok.inj h
      rw [Prod.mk.injEq] at he
      obtain ⟨h1, _⟩ := he
      subst h1
      intro c hc
      obtain ⟨_, _, _, _, _, _, hcs⟩ := applyProofs_ok_fields hp
      obtain ⟨c0, hc0, _, _, hexp, _, _, hproof⟩ := hcs c hc
      obtain ⟨_, _, _, _, _, _, hcs2⟩ := applyRevisions_fields tx.fileContractRevisions st
      obtain ⟨c1, hc1, _, _, hexp2, hproof2⟩ := hcs2 c0 hc0
      refine ⟨c1, hc1, hexp.trans hexp2, ?_⟩
      cases hproof with
      | inl hsame => exact Or.inl (hsame.trans hproof2)
      | inr hset => exact Or.inr hset

theorem applyTxs_noform {spent : List (Nat × Nat)} {d : Nat} :
    ∀ {txs : List Tx} {st : Store} {active : Nat} {st1 : Store} {a1 : Nat},
      (∀ tx ∈ txs, tx.fileContracts = []) →
      applyTxs spent d st active txs = .ok (st1, a1) →
      a1 = active ∧ ∀ c ∈ st1.contracts, ∃ c0 ∈ st.contracts,
        c.expirationHeight = c0.expirationHeight ∧
          (c.proofBlockDbId = c0.proofBlockDbId ∨ c.proofBlockDbId = some d) := by
  intro txs
  induction txs with
  | nil =>
    intro st active st1 a1 _ h
    have he := Except.ok.inj h
    rw [Prod.mk.injEq] at he
    obtain ⟨h1, h2⟩ := he
    rw [← h1, ← h2]
    exact ⟨rfl, fun c hc => ⟨c, hc, rfl, Or.inl rfl⟩⟩
  | cons tx rest ih =>
    intro st active st1 a1 hnf h
    rw [applyTxs] at h
    cases ht : applyTransaction spent d st tx with
    | error e => rw [ht] at h; exact absurd h (by simp)
    | ok p =>
      obtain ⟨st2, a2⟩ := p
      rw [ht] at h
      obtain ⟨ha2, hcs2⟩ := applyTransaction_noform (hnf tx (by simp)) ht
      obtain ⟨ha1, hcs⟩ := ih (fun t htm => hnf t (List.mem_cons_of_mem tx htm)) h
      refine ⟨by omega, ?_⟩
      intro c hc
      obtain ⟨c0, hc0, hexp, hproof⟩ := hcs c hc
      obtain ⟨c1, hc1, hexp2, hproof2⟩ := hcs2 c0 hc0
      refine ⟨c1, hc1, hexp.trans hexp2, ?_⟩
      cases hproof with
      | inl hsame =>
        cases hproof2 with
        | inl hsame2 => exact Or.inl (hsame.trans hsame2)
        | inr hset2 => exact Or.inr (hsame.trans hset2)
      | inr hset => exact Or.inr hset

theorem applyBlock_noform {spent : List (Nat × Nat)} {st : Store} {b : Block}
    {height hgt : Nat} {st1 : Store}
    (hnf : ∀ tx ∈ b.transactions, tx.fileContracts = [])
    (hh : hgt < height) (hmat : height - maturityDelay ≤ hgt)
    (hinv : sweepInv st hgt)
    (h : applyBlock spent st b height = .ok st1) :
    st1.hourlyStats = st.hourlyStats ∧ st1.market = st.market ∧
      st1.nextDbId = st.nextDbId + 1 ∧ sweepInv st1 hgt := by
  rw [applyBlock] at h
  cases ha : addBlock st b.blockId height b.timestamp with
  | error e => rw [ha] at h; exact absurd h (by simp)
  | ok p =>
    obtain ⟨d, sta⟩ := p
    simp only [ha] at h
    obtain ⟨hacon, hastats, hamkt, _, _, hablocks, had, hanext⟩ := addBlock_ok_fields ha
    have hinva : sweepInv sta hgt := addBlock_sweepInv ha hh hinv
    cases ht : applyTxs spent d sta 0 b.transactions with
    | error e => rw [ht] at h; exact absurd h (by simp)
    | ok q =>
      obtain ⟨stt, active⟩ := q
      simp only [ht] at h
      obtain ⟨htb, hts, htm, htn, _, _⟩ := applyTxs_ok_fields ht
      obtain ⟨hact, htcs⟩ := applyTxs_noform hnf ht
      -- the transaction loop preserves the sweep invariant: expirations are
      -- untouched and new proofs point only at the freshly added block
      have hinvt : sweepInv stt hgt := by
        obtain ⟨a1, a2, a3⟩ := hinva
        obtain ⟨s1, s2, s3⟩ := hinv
        refine ⟨?_, ?_, ?_⟩
        · intro c hc
          obtain ⟨c0, hc0, hexp, _⟩ := htcs c hc
          rw [hexp]
          exact a1 c0 hc0
        · intro c hc pid hp
          obtain ⟨c0, hc0, _, hproof⟩ := htcs c hc
          cases hproof with
          | inl hsame =>
            rw [hsame] at hp
            obtain ⟨hb1, hb2⟩ := a2 c0 hc0 pid hp
            rw [htn]
            exact ⟨hb1, fun bb hbb hbd => hb2 bb (htb ▸ hbb) hbd⟩
          | inr hset =>
            rw [hset] at hp
            have hpid : pid = d := (Option.some.inj hp).symm
            rw [hpid, had, htn, hanext, htb, hablocks]
            refine ⟨by omega, ?_⟩
            intro bb hbb hbd
            rcases List.mem_append.mp hbb with hold | hnew
            · have := s3 bb hold
              omega
            · have hbeq : bb = ⟨st.nextDbId, b.blockId, height, b.timestamp⟩ := by
                simpa using hnew
              rw [hbeq]
              simpa using hh
        · intro bb hbb
          rw [htn]
          exact a3 bb (htb ▸ hbb)
      have hmiss : missedContracts stt (height - maturityDelay) = [] := by
        rw [missedContracts, List.filter_eq_nil_iff]
        intro c hc
        have hexp := hinvt.1 c hc
        simp only [Bool.and_eq_true, decide_eq_true_eq, not_and]
        intro hle
        omega
      have hvalid : validContracts stt (height - maturityDelay) = [] := by
        rw [validContracts, List.filter_eq_nil_iff]
        intro c hc
        simp only [Bool.and_eq_true, not_and]
        intro _
        cases hp : c.proofBlockDbId with
        | none => simp
        | some pid =>
          obtain ⟨_, hb2⟩ := hinvt.2.1 c hc pid hp
          simp only [List.any_eq_true, Bool.and_eq_true, decide_eq_true_eq, not_exists, not_and]
          rintro bb hbb hbd
          have := hb2 bb hbb hbd
          omega
      have hupd : ∀ t : Int, updateContractStats stt 0 0 0 Values.zero Values.zero t =
          .ok stt := by
        intro t
        rw [updateContractStats, if_pos ⟨rfl, rfl, rfl⟩]
      by_cases hdel : maturityDelay < height
      · rw [if_pos hdel] at h
        cases hr : getExchangeRate stt b.timestamp with
        | error e => rw [hr] at h; exact absurd h (by simp)
        | ok rates =>
          simp only [hr, hmiss, hvalid] at h
          have hz : ((active : Int) - ((([] : List ContractRow).length) : Int) -
              ((([] : List ContractRow).length) : Int)) = 0 := by
            rw [hact]
            simp
          rw [show maturationTotals rates.1 rates.2.1 rates.2.2 [] [] =
              (Values.zero, Values.zero) from rfl] at h
          simp only [List.length_nil, Nat.cast_zero, hact, Nat.cast_ofNat] at h
          rw [show ((0 : Int) - 0 - 0) = 0 from rfl] at h
          rw [hupd b.timestamp] at h
          have he := Except.ok.inj h
          rw [← he]
          exact ⟨hts.trans hastats, htm.trans hamkt, by rw [htn, hanext], hinvt⟩
      · rw [if_neg hdel] at h
        rw [hact] at h
        rw [show ((0 : Nat) : Int) = 0 from rfl] at h
        rw [hupd b.timestamp] at h
        have he := Except.ok.inj h
        rw [← he]
        exact ⟨hts.trans hastats, htm.trans hamkt, by rw [htn, hanext], hinvt⟩

theorem applyBlocks_noform {spent : List (Nat × Nat)} {hgt : Nat} :
    ∀ {bs : List Block} {st : Store} {h0 : Nat} {st1 : Store},
      (∀ b ∈ bs, ∀ tx ∈ b.transactions, tx.fileContracts = []) →
      hgt < h0 → h0 + bs.length ≤ hgt + maturityDelay + 1 →
      sweepInv st hgt →
      applyBlocks spent st h0 bs = .ok st1 →
      st1.hourlyStats = st.hourlyStats ∧ st1.market = st.market := by
  intro bs
  induction bs with
  | nil =>
    intro st h0 st1 _ _ _ _ h
    have he := Except.ok.inj h
    rw [← he]
    exact ⟨rfl, rfl⟩
  | cons b rest ih =>
    intro st h0 st1 hnf hh hb hinv h
    rw [applyBlocks] at h
    cases h1 : applyBlock spent st b h0 with
    | error e => rw [h1] at h; exact absurd h (by simp)
    | ok st2 =>
      rw [h1] at h
      obtain ⟨hs2, hm2, _, hinv2⟩ := applyBlock_noform (hnf b (by simp)) hh
        (by simp only [List.length_cons] at hb; omega) hinv h1
      obtain ⟨hs, hm⟩ := ih (fun bb hbb => hnf bb (List.mem_cons_of_mem b hbb))
        (by omega) (by simp only [List.length_cons] at hb; omega) hinv2 h
      exact ⟨hs.trans hs2, hm.trans hm2⟩

/-- Claim C3 (amended): a consensus change that reverts blocks and
re-applies equivalent blocks whose transactions contain **no contract
formations** — with the re-applied region entirely above the matured tip
(`tip − maturityDelay < baseHeight`) and the store satisfying the post-sweep
invariant that `deleteExpired` establishes — leaves the cumulative
`hourly_contract_stats` series exactly unchanged, so its `(active, valid,
missed, revenue, payout)` totals equal the direct path's (the pre-change
store *is* the direct path's result).  Reverting a block never touches a
stats bucket.  With formations in the re-applied blocks the equality fails:
the `active` counter double-counts (see the counterexample). -/
theorem reorg_stats_unchanged (st : Store) (cc : ConsensusChange)
    (hnf : ∀ b ∈ cc.appliedBlocks, ∀ tx ∈ b.transactions, tx.fileContracts = [])
    (hinv : sweepInv st (cc.blockHeight - maturityDelay))
    (hbase : cc.blockHeight - maturityDelay < cc.blockHeight + 1 - cc.appliedBlocks.length)
    (hlen : cc.appliedBlocks.length ≤ cc.blockHeight + 1) :
    (runChange st cc).hourlyStats = st.hourlyStats ∧
      (∀ bid st2, revertBlock st bid = .ok st2 → st2.hourlyStats = st.hourlyStats) := by
  refine ⟨?_, fun bid st2 hr => (revertBlock_ok_fields hr).1⟩
  rw [runChange]
  cases hp : processConsensusChange st cc with
  | error e => rfl
  | ok st1 =>
    rw [processConsensusChange] at hp
    cases h1 : revertBlocks st cc.revertedBlocks with
    | error e => rw [h1] at hp; exact absurd hp (by simp)
    | ok s1 =>
      simp only [h1] at hp
      obtain ⟨hs1, hm1, hi1⟩ :=
        @revertBlocks_stats_sweepInv (cc.blockHeight - maturityDelay) _ _ _ h1
      cases h2 : applyBlocks cc.spentUtxo s1 (cc.blockHeight + 1 - cc.appliedBlocks.length)
          cc.appliedBlocks with
      | error e => rw [h2] at hp; exact absurd hp (by simp)
      | ok s2 =>
        simp only [h2] at hp
        have harith : (cc.blockHeight + 1 - cc.appliedBlocks.length) +
            cc.appliedBlocks.length ≤
            (cc.blockHeight - maturityDelay) + maturityDelay + 1 := by omega
        obtain ⟨hs2, hm2⟩ := applyBlocks_noform hnf hbase harith (hi1 hinv) h2
        have he := Except.ok.inj hp
        rw [← he]
        by_cases hd : maturityDelay < cc.blockHeight
        · rw [if_pos hd]
          rw [show (setLastChange (deleteExpired s2 (cc.blockHeight - maturityDelay))
              cc.id cc.blockHeight).hourlyStats =
            s2.hourlyStats from rfl]
          rw [hs2, hs1]
        · rw [if_neg hd]
          rw [show (setLastChange s2 cc.id cc.blockHeight).hourlyStats =
            s2.hourlyStats from rfl]
          rw [hs2, hs1]

/-- Witness for claim C3 (amended) at a concrete input: a store holding one
block, one stats bucket and the post-sweep invariant; the change reverts
that block and re-applies an equivalent empty block.  The stats series is
unchanged. -/
theorem reorg_stats_unchanged_witness :
    (runChange
        ⟨[⟨0, 201, 1, 36000⟩], [], [⟨36000, 1, 0, 0, Values.zero, Values.zero⟩],
          [], some 11, 1, 1⟩
        ⟨12, 1, [⟨201, 36000, []⟩], [⟨202, 36000, []⟩], []⟩).hourlyStats =
      (⟨[⟨0, 201, 1, 36000⟩], [], [⟨36000, 1, 0, 0, Values.zero, Values.zero⟩],
          [], some 11, 1, 1⟩ : Store).hourlyStats :=
  (reorg_stats_unchanged
    ⟨[⟨0, 201, 1, 36000⟩], [], [⟨36000, 1, 0, 0, Values.zero, Values.zero⟩],
      [], some 11, 1, 1⟩
    ⟨12, 1, [⟨201, 36000, []⟩], [⟨202, 36000, []⟩], []⟩
    (by intro b hb tx htx; simp at hb; rw [hb] at htx; simp at htx)
    (by
      refine ⟨?_, ?_, ?_⟩
      · intro c hc; simp at hc
      · intro c hc; simp at hc
      · intro b hb
        simp at hb
        rw [hb]
        decide)
    (by decide) (by decide)).1

/-! ### Claim C4: monotonicity of the stored revenue and payout series -/

/-- Componentwise order on `stats.Values`. -/
def Values.le (a b : Values) : Prop :=
  a.sc ≤ b.sc ∧ a.usd ≤ b.usd ∧ a.eur ≤ b.eur ∧ a.btc ≤ b.btc

/-- The fiat legs of a `stats.Values` are non-negative (its native leg is a
`Nat`). -/
def Values.nonneg (v : Values) : Prop :=
  0 ≤ v.usd ∧ 0 ≤ v.eur ∧ 0 ≤ v.btc

/-- The stats table is strictly increasing in timestamp and non-decreasing in
every revenue and payout leg, across every pair of rows. -/
def statsSorted (rows : List StatsRow) : Prop :=
  rows.Pairwise fun a b => a.timestamp < b.timestamp ∧
    Values.le a.revenue b.revenue ∧ Values.le a.payout b.payout

theorem Values.le_refl (a : Values) : Values.le a a :=
  ⟨Nat.le_refl _, le_rfl, le_rfl, le_rfl⟩

theorem Values.le_trans {a b c : Values} (h1 : Values.le a b) (h2 : Values.le b c) :
    Values.le a c :=
  ⟨h1.1.trans h2.1, h1.2.1.trans h2.2.1, h1.2.2.1.trans h2.2.2.1, h1.2.2.2.trans h2.2.2.2⟩

theorem Values.le_add_of_nonneg {a d : Values} (hd : d.nonneg) : Values.le a (a.add d) :=
  ⟨Nat.le_add_right _ _, le_add_of_nonneg_right hd.1, le_add_of_nonneg_right hd.2.1,
    le_add_of_nonneg_right hd.2.2⟩

theorem Values.nonneg_zero : Values.nonneg Values.zero :=
  ⟨le_rfl, le_rfl, le_rfl⟩

theorem Values.nonneg_add {a b : Values} (ha : a.nonneg) (hb : b.nonneg) :
    Values.nonneg (a.add b) :=
  ⟨add_nonneg ha.1 hb.1, add_nonneg ha.2.1 hb.2.1, add_nonneg ha.2.2 hb.2.2⟩

theorem scDecimal_nonneg (c : Nat) : 0 ≤ scDecimal c := by
  rw [scDecimal]
  positivity

theorem missedContractRevenue_nonneg {u e b : Rat} (hu : 0 ≤ u) (he : 0 ≤ e)
    (hb : 0 ≤ b) (c : ContractRow) : (missedContractRevenue u e b c).nonneg := by
  rw [missedContractRevenue]
  split
  · exact Values.nonneg_zero
  · exact ⟨mul_nonneg (scDecimal_nonneg _) hu, mul_nonneg (scDecimal_nonneg _) he,
      mul_nonneg (scDecimal_nonneg _) hb⟩

theorem missedContractPayout_nonneg {u e b : Rat} (hu : 0 ≤ u) (he : 0 ≤ e)
    (hb : 0 ≤ b) (c : ContractRow) : (missedContractPayout u e b c).nonneg :=
  ⟨mul_nonneg (scDecimal_nonneg _) hu, mul_nonneg (scDecimal_nonneg _) he,
    mul_nonneg (scDecimal_nonneg _) hb⟩

theorem validContractRevenue_nonneg {u e b : Rat} (hu : 0 ≤ u) (he : 0 ≤ e)
    (c : ContractRow) : (validContractRevenue u e b c).nonneg := by
  rw [validContractRevenue]
  split
  · exact Values.nonneg_zero
  · exact ⟨mul_nonneg (scDecimal_nonneg _) hu, mul_nonneg (scDecimal_nonneg _) he, le_refl _⟩

theorem validContractPayout_nonneg {u e b : Rat} (hu : 0 ≤ u) (he : 0 ≤ e)
    (hb : 0 ≤ b) (c : ContractRow) : (validContractPayout u e b c).nonneg :=
  ⟨mul_nonneg (scDecimal_nonneg _) hu, mul_nonneg (scDecimal_nonneg _) he,
    mul_nonneg (scDecimal_nonneg _) hb⟩

theorem valuesSum_nonneg {l : List Values} (h : ∀ v ∈ l, v.nonneg) :
    (valuesSum l).nonneg := by
  induction l with
  | nil => exact Values.nonneg_zero
  | cons v rest ih =>
    exact Values.nonneg_add (h v (by simp)) (ih fun w hw => h w (List.mem_cons_of_mem v hw))

theorem maturationTotals_nonneg {u e b : Rat} (hu : 0 ≤ u) (he : 0 ≤ e) (hb : 0 ≤ b)
    (ml vl : List ContractRow) :
    (maturationTotals u e b ml vl).1.nonneg ∧ (maturationTotals u e b ml vl).2.nonneg := by
  rw [maturationTotals_eq]
  constructor
  · exact Values.nonneg_add
      (valuesSum_nonneg (by
        intro v hv
        obtain ⟨c, _, hc⟩ := List.mem_map.mp hv
        rw [← hc]
        exact missedContractRevenue_nonneg hu he hb c))
      (valuesSum_nonneg (by
        intro v hv
        obtain ⟨c, _, hc⟩ := List.mem_map.mp hv
        rw [← hc]
        exact validContractRevenue_nonneg hu he c))
  · exact Values.nonneg_add
      (valuesSum_nonneg (by
        intro v hv
        obtain ⟨c, _, hc⟩ := List.mem_map.mp hv
        rw [← hc]
        exact missedContractPayout_nonneg hu he hb c))
      (valuesSum_nonneg (by
        intro v hv
        obtain ⟨c, _, hc⟩ := List.mem_map.mp hv
        rw [← hc]
        exact validContractPayout_nonneg hu he hb c))

/-- All exchange-rate rows of the store carry non-negative rates. -/
def ratesNonneg (st : Store) : Prop :=
  ∀ r ∈ st.market, 0 ≤ r.usd ∧ 0 ≤ r.eur ∧ 0 ≤ r.btc

theorem statsFold_mem {t : Int} :
    ∀ (rows : List StatsRow) (acc : Option StatsRow) (r : StatsRow),
      rows.foldl (fun best row =>
        if row.timestamp ≤ t then
          match best with
          | none => some row
          | some b => if b.timestamp < row.timestamp then some row else some b
        else best) acc = some r → acc = some r ∨ r ∈ rows := by
  intro rows
  induction rows with
  | nil => intro acc r h; exact Or.inl h
  | cons x rest ih =>
    intro acc r h
    rw [List.foldl_cons] at h
    by_cases hx : x.timestamp ≤ t
    · cases acc with
      | none =>
        simp only [if_pos hx] at h
        rcases ih (some x) r h with hl | hr
        · exact Or.inr (by simp [Option.some.inj hl])
        · exact Or.inr (List.mem_cons_of_mem x hr)
      | some b =>
        by_cases hc : b.timestamp < x.timestamp
        · simp only [if_pos hx, if_pos hc] at h
          rcases ih (some x) r h with hl | hr
          · exact Or.inr (by simp [Option.some.inj hl])
          · exact Or.inr (List.mem_cons_of_mem x hr)
        · simp only [if_pos hx, if_neg hc] at h
          rcases ih (some b) r h with hl | hr
          · exact Or.inl hl
          · exact Or.inr (List.mem_cons_of_mem x hr)
    · simp only [if_neg hx] at h
      rcases ih acc r h with hl | hr
      · exact Or.inl hl
      · exact Or.inr (List.mem_cons_of_mem x hr)

theorem getMetrics_last {st : Store} {t : Int} {pre : List StatsRow} {last : StatsRow}
    (hrows : st.hourlyStats = pre ++ [last])
    (hle : ∀ r ∈ st.hourlyStats, r.timestamp ≤ t)
    (hpre : ∀ r ∈ pre, r.timestamp < last.timestamp) :
    getMetrics st t = last := by
  rw [getMetrics, hrows, List.foldl_append, List.foldl_cons, List.foldl_nil]
  have hlast : last.timestamp ≤ t := hle last (by rw [hrows]; simp)
  cases hacc : pre.foldl (fun best row =>
      if row.timestamp ≤ t then
        match best with
        | none => some row
        | some b => if b.timestamp < row.timestamp then some row else some b
      else best) none with
  | none => simp only [if_pos hlast]
  | some b =>
    rcases statsFold_mem pre none b hacc with hl | hr
    · exact absurd hl (by simp)
    · simp only [if_pos hlast, if_pos (hpre b hr)]

theorem upsertStats_append {rows : List StatsRow} {new : StatsRow}
    (hne : ∀ r ∈ rows, r.timestamp ≠ new.timestamp) :
    upsertStats rows new = rows ++ [new] := by
  rw [upsertStats, if_neg]
  simp only [List.any_eq_true, decide_eq_true_eq, not_exists]
  intro r hmem
  exact hne r hmem.1 hmem.2

theorem upsertStats_replace {pre : List StatsRow} {last new : StatsRow}
    (hlast : last.timestamp = new.timestamp)
    (hpre : ∀ r ∈ pre, r.timestamp ≠ new.timestamp) :
    upsertStats (pre ++ [last]) new = pre ++ [new] := by
  rw [upsertStats, if_pos]
  · rw [List.map_append]
    congr 1
    · have hmap : List.map (fun r => if r.timestamp = new.timestamp then new else r) pre =
          List.map id pre :=
        List.map_congr_left fun r hr => by simp [if_neg (hpre r hr)]
      rw [hmap, List.map_id]
    · simp [hlast]
  · simp only [List.any_eq_true, decide_eq_true_eq]
    exact ⟨last, by simp, hlast⟩

theorem mem_upsertStats {rows : List StatsRow} {new r : StatsRow}
    (h : r ∈ upsertStats rows new) : r ∈ rows ∨ r = new := by
  rw [upsertStats] at h
  by_cases hany : rows.any (fun r2 => decide (r2.timestamp = new.timestamp))
  · rw [if_pos hany] at h
    obtain ⟨r0, hr0, hmap⟩ := List.mem_map.mp h
    by_cases hts : r0.timestamp = new.timestamp
    · rw [if_pos hts] at hmap
      exact Or.inr hmap.symm
    · rw [if_neg hts] at hmap
      exact Or.inl (hmap ▸ hr0)
  · rw [if_neg hany] at h
    rcases List.mem_append.mp h with hl | hr
    · exact Or.inl hl
    · exact Or.inr (by simpa using hr)

theorem getMetrics_ge {st : Store} {t : Int}
    (hsort : statsSorted st.hourlyStats)
    (hbelow : ∀ r ∈ st.hourlyStats, r.timestamp ≤ t) :
    ∀ r ∈ st.hourlyStats, r.timestamp ≤ (getMetrics st t).timestamp ∧
      Values.le r.revenue (getMetrics st t).revenue ∧
      Values.le r.payout (getMetrics st t).payout := by
  rcases st.hourlyStats.eq_nil_or_concat' with hnil | ⟨pre, last, heq⟩
  · intro r hr
    rw [hnil] at hr
    exact absurd hr (by simp)
  · simp only [statsSorted] at hsort
    rw [heq, List.pairwise_append] at hsort
    obtain ⟨h1, -, h3⟩ := hsort
    have hpre : ∀ a ∈ pre, a.timestamp < last.timestamp :=
      fun a ha => (h3 a ha last (by simp)).1
    have hgm : getMetrics st t = last := getMetrics_last heq hbelow hpre
    intro r hr
    rw [heq] at hr
    rcases List.mem_append.mp hr with hp | hl
    · have hR := h3 r hp last (by simp)
      rw [hgm]
      exact ⟨le_of_lt hR.1, hR.2.1, hR.2.2⟩
    · have hrl : r = last := by simpa using hl
      rw [hgm, hrl]
      exact ⟨le_rfl, Values.le_refl _, Values.le_refl _⟩

theorem updateContractStats_sorted {st : Store} {a v m : Int} {rev pay : Values}
    {t : Int} {st1 : Store}
    (h : updateContractStats st a v m rev pay t = .ok st1)
    (hsort : statsSorted st.hourlyStats)
    (hbelow : ∀ r ∈ st.hourlyStats, r.timestamp ≤ t)
    (hrev : rev.nonneg) (hpay : pay.nonneg) :
    statsSorted st1.hourlyStats ∧ ∀ r ∈ st1.hourlyStats, r.timestamp ≤ t := by
  obtain ⟨-, -, -, -, -, -, hstats⟩ := updateContractStats_ok_fields h
  rcases hstats with heq | heq
  · rw [heq]
    exact ⟨hsort, hbelow⟩
  · have hge := getMetrics_ge hsort hbelow
    by_cases hex : ∃ r ∈ st.hourlyStats, r.timestamp = t
    · obtain ⟨r0, hr0, hr0t⟩ := hex
      rcases st.hourlyStats.eq_nil_or_concat' with hnil | ⟨pre, last, heql⟩
      · rw [hnil] at hr0
        exact absurd hr0 (by simp)
      · have hsort' := hsort
        simp only [statsSorted] at hsort'
        rw [heql, List.pairwise_append] at hsort'
        obtain ⟨h1, -, h3⟩ := hsort'
        have hlastle : last.timestamp ≤ t := hbelow last (by rw [heql]; simp)
        have hlastt : last.timestamp = t := by
          rw [heql] at hr0
          rcases List.mem_append.mp hr0 with hp | hl
          · have hlt := (h3 r0 hp last (by simp)).1
            omega
          · have : r0 = last := by simpa using hl
            rw [← this]
            exact hr0t
        have hpre' : ∀ r2 ∈ pre,
            r2.timestamp ≠ (StatsRow.mk t ((getMetrics st t).active + a)
              ((getMetrics st t).valid + v) ((getMetrics st t).missed + m)
              ((getMetrics st t).revenue.add rev) ((getMetrics st t).payout.add pay)).timestamp := by
          intro r2 hr2
          have hlt := (h3 r2 hr2 last (by simp)).1
          show r2.timestamp ≠ t
          omega
        rw [heq, heql, upsertStats_replace hlastt hpre']
        constructor
        · simp only [statsSorted]
          rw [List.pairwise_append]
          refine ⟨h1, List.pairwise_singleton _ _, ?_⟩
          intro x hx y hy
          rw [List.mem_singleton] at hy
          subst hy
          have hxm : x ∈ st.hourlyStats := by
            rw [heql]
            exact List.mem_append_left _ hx
          have hxg := hge x hxm
          refine ⟨?_, ?_, ?_⟩
          · show x.timestamp < t
            have := (h3 x hx last (by simp)).1
            omega
          · exact Values.le_trans hxg.2.1 (Values.le_add_of_nonneg hrev)
          · exact Values.le_trans hxg.2.2 (Values.le_add_of_nonneg hpay)
        · intro r hr
          rcases List.mem_append.mp hr with hp | hl
          · exact hbelow r (by rw [heql]; exact List.mem_append_left _ hp)
          · rw [List.mem_singleton] at hl
            rw [hl]
    · push_neg at hex
      have hne : ∀ r ∈ st.hourlyStats,
          r.timestamp ≠ (StatsRow.mk t ((getMetrics st t).active + a)
            ((getMetrics st t).valid + v) ((getMetrics st t).missed + m)
            ((getMetrics st t).revenue.add rev) ((getMetrics st t).payout.add pay)).timestamp :=
        fun r hr => hex r hr
      rw [heq, upsertStats_append hne]
      constructor
      · simp only [statsSorted]
        rw [List.pairwise_append]
        refine ⟨hsort, List.pairwise_singleton _ _, ?_⟩
        intro x hx y hy
        rw [List.mem_singleton] at hy
        subst hy
        have hxg := hge x hx
        refine ⟨?_, ?_, ?_⟩
        · exact lt_of_le_of_ne (hbelow x hx) (hex x hx)
        · exact Values.le_trans hxg.2.1 (Values.le_add_of_nonneg hrev)
        · exact Values.le_trans hxg.2.2 (Values.le_add_of_nonneg hpay)
      · intro r hr
        rcases List.mem_append.mp hr with hp | hl
        · exact hbelow r hp
        · rw [List.mem_singleton] at hl
          rw [hl]

theorem applyBlock_sorted {spent : List (Nat × Nat)} {st : Store} {b : Block}
    {height : Nat} {st1 : Store}
    (h : applyBlock spent st b height = .ok st1)
    (hsort : statsSorted st.hourlyStats)
    (hbelow : ∀ r ∈ st.hourlyStats, r.timestamp ≤ b.timestamp)
    (hrates : ratesNonneg st) :
    statsSorted st1.hourlyStats ∧ (∀ r ∈ st1.hourlyStats, r.timestamp ≤ b.timestamp) ∧
      st1.market = st.market := by
  rw [applyBlock] at h
  cases hab : addBlock st b.blockId height b.timestamp with
  | error e => rw [hab] at h; exact absurd h (by simp)
  | ok p =>
    obtain ⟨d, stA⟩ := p
    simp only [hab] at h
    obtain ⟨-, hsA, hmA, -, -, -, -, -⟩ := addBlock_ok_fields hab
    cases htx : applyTxs spent d stA 0 b.transactions with
    | error e => rw [htx] at h; exact absurd h (by simp)
    | ok q =>
      obtain ⟨stB, active⟩ := q
      simp only [htx] at h
      obtain ⟨-, hsB, hmB, -, -, -⟩ := applyTxs_ok_fields htx
      have hsB' : stB.hourlyStats = st.hourlyStats := hsB.trans hsA
      have hmB' : stB.market = st.market := hmB.trans hmA
      have hsortB : statsSorted stB.hourlyStats := by rw [hsB']; exact hsort
      have hbelowB : ∀ r ∈ stB.hourlyStats, r.timestamp ≤ b.timestamp := by
        intro r hr
        rw [hsB'] at hr
        exact hbelow r hr
      by_cases hmat : maturityDelay < height
      · rw [if_pos hmat] at h
        cases hrate : getExchangeRate stB b.timestamp with
        | error e => rw [hrate] at h; exact absurd h (by simp)
        | ok rates =>
          simp only [hrate] at h
          obtain ⟨r, hrm, hre⟩ := getExchangeRate_mem hrate
          rw [hmB'] at hrm
          obtain ⟨hu, he', hb'⟩ := hrates r hrm
          have hru : (0:Rat) ≤ rates.1 := by rw [hre]; exact hu
          have hre2 : (0:Rat) ≤ rates.2.1 := by rw [hre]; exact he'
          have hrb : (0:Rat) ≤ rates.2.2 := by rw [hre]; exact hb'
          have htot := maturationTotals_nonneg hru hre2 hrb
            (missedContracts stB (height - maturityDelay))
            (validContracts stB (height - maturityDelay))
          have hs := updateContractStats_sorted h hsortB hbelowB htot.1 htot.2
          obtain ⟨-, -, hmU, -, -, -, -⟩ := updateContractStats_ok_fields h
          exact ⟨hs.1, hs.2, hmU.trans hmB'⟩
      · rw [if_neg hmat] at h
        have hs := updateContractStats_sorted h hsortB hbelowB
          Values.nonneg_zero Values.nonneg_zero
        obtain ⟨-, -, hmU, -, -, -, -⟩ := updateContractStats_ok_fields h
        exact ⟨hs.1, hs.2, hmU.trans hmB'⟩

/-- Chronological order of a run of blocks: each block's timestamp is at
least the bound, which then advances to that block's timestamp. -/
def blocksChron (T : Int) : List Block → Prop
  | [] => True
  | b :: rest => T ≤ b.timestamp ∧ blocksChron b.timestamp rest

/-- The timestamp of the last block of a run (the incoming bound when the run
is empty). -/
def lastTs (T : Int) : List Block → Int
  | [] => T
  | b :: rest => lastTs b.timestamp rest

theorem lastTs_ge : ∀ {bs : List Block} {T : Int}, blocksChron T bs → T ≤ lastTs T bs := by
  intro bs
  induction bs with
  | nil => intro T h; exact le_rfl
  | cons b rest ih =>
    intro T h
    obtain ⟨h1, h2⟩ := h
    exact le_trans h1 (ih h2)

theorem applyBlocks_sorted {spent : List (Nat × Nat)} :
    ∀ {bs : List Block} {st : Store} {hgt : Nat} {st1 : Store} {T : Int},
      applyBlocks spent st hgt bs = .ok st1 →
      statsSorted st.hourlyStats → ratesNonneg st →
      (∀ r ∈ st.hourlyStats, r.timestamp ≤ T) → blocksChron T bs →
      statsSorted st1.hourlyStats ∧
        (∀ r ∈ st1.hourlyStats, r.timestamp ≤ lastTs T bs) ∧
        st1.market = st.market := by
  intro bs
  induction bs with
  | nil =>
    intro st hgt st1 T h hs hr hb hc
    have he := Except.ok.inj h
    rw [← he]
    exact ⟨hs, hb, rfl⟩
  | cons b rest ih =>
    intro st hgt st1 T h hs hr hb hc
    rw [applyBlocks] at h
    cases hap : applyBlock spent st b hgt with
    | error e => rw [hap] at h; exact absurd h (by simp)
    | ok stA =>
      rw [hap] at h
      obtain ⟨hcb, hcr⟩ := hc
      have hb' : ∀ r ∈ st.hourlyStats, r.timestamp ≤ b.timestamp :=
        fun r hr2 => le_trans (hb r hr2) hcb
      obtain ⟨hsA, hbA, hmA⟩ := applyBlock_sorted hap hs hb' hr
      have hrA : ratesNonneg stA := by
        intro r hr2
        rw [hmA] at hr2
        exact hr r hr2
      obtain ⟨hs1, hb1, hm1⟩ := ih h hsA hrA hbA hcr
      exact ⟨hs1, hb1, hm1.trans hmA⟩

theorem revertBlocks_statsMarket :
    ∀ {bs : List Block} {st st1 : Store}, revertBlocks st bs = .ok st1 →
      st1.hourlyStats = st.hourlyStats ∧ st1.market = st.market := by
  intro bs
  induction bs with
  | nil =>
    intro st st1 h
    have he := Except.ok.inj h
    rw [← he]
    exact ⟨rfl, rfl⟩
  | cons b rest ih =>
    intro st st1 h
    rw [revertBlocks] at h
    cases hrv : revertBlock st b.blockId with
    | error e => rw [hrv] at h; exact absurd h (by simp)
    | ok stA =>
      rw [hrv] at h
      obtain ⟨hsA, hmA, -, -, -, -, -⟩ := revertBlock_ok_fields hrv
      obtain ⟨hs1, hm1⟩ := ih h
      exact ⟨hs1.trans hsA, hm1.trans hmA⟩

theorem processConsensusChange_sorted {st : Store} {cc : ConsensusChange} {st1 : Store}
    {T : Int}
    (h : processConsensusChange st cc = .ok st1)
    (hs : statsSorted st.hourlyStats) (hr : ratesNonneg st)
    (hb : ∀ r ∈ st.hourlyStats, r.timestamp ≤ T)
    (hc : blocksChron T cc.appliedBlocks) :
    statsSorted st1.hourlyStats ∧
      (∀ r ∈ st1.hourlyStats, r.timestamp ≤ lastTs T cc.appliedBlocks) ∧
      st1.market = st.market := by
  rw [processConsensusChange] at h
  cases hrv : revertBlocks st cc.revertedBlocks with
  | error e => rw [hrv] at h; exact absurd h (by simp)
  | ok stA =>
    simp only [hrv] at h
    obtain ⟨hsA, hmA⟩ := revertBlocks_statsMarket hrv
    cases hap : applyBlocks cc.spentUtxo stA (cc.blockHeight + 1 - cc.appliedBlocks.length)
        cc.appliedBlocks with
    | error e => rw [hap] at h; exact absurd h (by simp)
    | ok stB =>
      simp only [hap] at h
      have hsA' : statsSorted stA.hourlyStats := by rw [hsA]; exact hs
      have hrA : ratesNonneg stA := by
        intro r hr2
        rw [hmA] at hr2
        exact hr r hr2
      have hbA : ∀ r ∈ stA.hourlyStats, r.timestamp ≤ T := by
        intro r hr2
        rw [hsA] at hr2
        exact hb r hr2
      obtain ⟨hsB, hbB, hmB⟩ := applyBlocks_sorted hap hsA' hrA hbA hc
      have he := Except.ok.inj h
      have hst1s : st1.hourlyStats = stB.hourlyStats := by
        rw [← he]
        by_cases hdel : maturityDelay < cc.blockHeight
        · rw [if_pos hdel]; rfl
        · rw [if_neg hdel]; rfl
      have hst1m : st1.market = stB.market := by
        rw [← he]
        by_cases hdel : maturityDelay < cc.blockHeight
        · rw [if_pos hdel]; rfl
        · rw [if_neg hdel]; rfl
      refine ⟨?_, ?_, ?_⟩
      · rw [hst1s]; exact hsB
      · intro r hr2
        rw [hst1s] at hr2
        exact hbB r hr2
      · rw [hst1m, hmB, hmA]

/-- Chronological order of a sequence of consensus changes: within each
change the applied blocks' timestamps are non-decreasing, and each change's
blocks start no earlier than the previous change's last block. -/
def changesChron (T : Int) : List ConsensusChange → Prop
  | [] => True
  | cc :: rest => blocksChron T cc.appliedBlocks ∧
      changesChron (lastTs T cc.appliedBlocks) rest

theorem runChange_sorted {st : Store} {cc : ConsensusChange} {T : Int}
    (hs : statsSorted st.hourlyStats) (hr : ratesNonneg st)
    (hb : ∀ r ∈ st.hourlyStats, r.timestamp ≤ T)
    (hc : blocksChron T cc.appliedBlocks) :
    statsSorted (runChange st cc).hourlyStats ∧
      (∀ r ∈ (runChange st cc).hourlyStats, r.timestamp ≤ lastTs T cc.appliedBlocks) ∧
      (runChange st cc).market = st.market := by
  cases hp : processConsensusChange st cc with
  | error e =>
    simp only [runChange, hp]
    exact ⟨hs, fun r hr2 => le_trans (hb r hr2) (lastTs_ge hc), trivial⟩
  | ok stX =>
    simp only [runChange, hp]
    exact processConsensusChange_sorted hp hs hr hb hc

theorem runChanges_sorted :
    ∀ {ccs : List ConsensusChange} {st : Store} {T : Int},
      statsSorted st.hourlyStats → ratesNonneg st →
      (∀ r ∈ st.hourlyStats, r.timestamp ≤ T) → changesChron T ccs →
      statsSorted (runChanges st ccs).hourlyStats := by
  intro ccs
  induction ccs with
  | nil =>
    intro st T hs hr hb hc
    exact hs
  | cons cc rest ih =>
    intro st T hs hr hb hc
    obtain ⟨hc1, hc2⟩ := hc
    obtain ⟨hsA, hbA, hmA⟩ := runChange_sorted hs hr hb hc1
    have hrA : ratesNonneg (runChange st cc) := by
      intro r hr2
      rw [hmA] at hr2
      exact hr r hr2
    exact ih hsA hrA hbA hc2

/-! ### Claim C4: counterexample and amended theorem -/

/-- A store with only an exchange-rate row (timestamp 0, all rates 1). -/
def c4xStore : Store := ⟨[], [], [], [⟨0, 1, 1, 1⟩], none, 0, 0⟩

/-- A block at timestamp 36000 forming one contract (host legs 200) expiring
at height 5. -/
def c4xBlockA : Block := ⟨301, 36000, [⟨5, [], [], [], [⟨[0, 200], [0, 200], 5⟩], [], []⟩]⟩

/-- A later block whose timestamp 18000 lies before the previous block's,
forming one contract (host legs 500) expiring at height 5. -/
def c4xBlockB : Block := ⟨302, 18000, [⟨6, [], [], [], [⟨[0, 500], [0, 500], 5⟩], [], []⟩]⟩

def c4xChange1 : ConsensusChange := ⟨21, 150, [], [c4xBlockA], []⟩

def c4xChange2 : ConsensusChange := ⟨22, 151, [], [c4xBlockB], []⟩

/-- Claim C4, counterexample: after processing two consensus changes whose
blocks' timestamps arrive out of order (36000 then 18000), the stats table
holds a row with the earlier timestamp 18000 but a strictly larger USD
payout than the row at 36000 — the stored payout series is not monotonically
non-decreasing in time.  `updateContractStats` keys the bucket by the raw
block timestamp and `getMetrics` reads the running totals at or before that
timestamp, so a block timestamped before an existing bucket starts again
from the older (smaller) totals. -/
theorem hourlyStats_monotone_counterexample :
    (((runChanges c4xStore [c4xChange1, c4xChange2]).hourlyStats.getD 1
        ⟨0, 0, 0, 0, Values.zero, Values.zero⟩).timestamp <
      ((runChanges c4xStore [c4xChange1, c4xChange2]).hourlyStats.getD 0
        ⟨0, 0, 0, 0, Values.zero, Values.zero⟩).timestamp) ∧
    (((runChanges c4xStore [c4xChange1, c4xChange2]).hourlyStats.getD 0
        ⟨0, 0, 0, 0, Values.zero, Values.zero⟩).payout.usd <
      ((runChanges c4xStore [c4xChange1, c4xChange2]).hourlyStats.getD 1
        ⟨0, 0, 0, 0, Values.zero, Values.zero⟩).payout.usd) := by
  with_unfolding_all decide

/-- Claim C4 (amended): for any two rows of `hourly_contract_stats` reachable
by a sequence of processed consensus changes whose applied blocks carry
chronologically non-decreasing timestamps — and whose exchange rates are
non-negative — the row with the later timestamp has revenue and payout
greater than or equal to the earlier row's, in every denomination: under
in-order timestamps the stored cumulative revenue and payout series is
monotonically non-decreasing in time. -/
theorem hourlyStats_monotone (st0 : Store) (ccs : List ConsensusChange) (T : Int)
    (hsort : statsSorted st0.hourlyStats)
    (hrates : ratesNonneg st0)
    (hbelow : ∀ r ∈ st0.hourlyStats, r.timestamp ≤ T)
    (hchron : changesChron T ccs) :
    ∀ a ∈ (runChanges st0 ccs).hourlyStats, ∀ b ∈ (runChanges st0 ccs).hourlyStats,
      a.timestamp < b.timestamp →
        Values.le a.revenue b.revenue ∧ Values.le a.payout b.payout := by
  have hs := runChanges_sorted hsort hrates hbelow hchron
  simp only [statsSorted] at hs
  intro a ha b hb hab
  obtain ⟨i, hi, hia⟩ := List.mem_iff_getElem.mp ha
  obtain ⟨j, hj, hjb⟩ := List.mem_iff_getElem.mp hb
  have hpg := List.pairwise_iff_getElem.mp hs
  rcases lt_trichotomy i j with hij | hij | hij
  · have hR := hpg i j hi hj hij
    rw [hia, hjb] at hR
    exact ⟨hR.2.1, hR.2.2⟩
  · exfalso
    subst hij
    have hab2 : a = b := hia.symm.trans hjb
    rw [← hab2] at hab
    exact lt_irrefl _ hab
  · exfalso
    have hR := hpg j i hj hi hij
    rw [hia, hjb] at hR
    have := hR.1
    omega

/-- A store holding one exchange-rate row, and a single in-order consensus
change applying one empty block at timestamp 3600. -/
def c4wStore : Store := ⟨[], [], [], [⟨0, 1, 1, 1⟩], none, 0, 0⟩

def c4wChange : ConsensusChange := ⟨31, 0, [], [⟨401, 3600, []⟩], []⟩

theorem hourlyStats_monotone_witness :
    statsSorted c4wStore.hourlyStats ∧ ratesNonneg c4wStore ∧
      (∀ r ∈ c4wStore.hourlyStats, r.timestamp ≤ (0 : Int)) ∧
      changesChron 0 [c4wChange] ∧
      (∀ a ∈ (runChanges c4wStore [c4wChange]).hourlyStats,
        ∀ b ∈ (runChanges c4wStore [c4wChange]).hourlyStats,
          a.timestamp < b.timestamp →
            Values.le a.revenue b.revenue ∧ Values.le a.payout b.payout) := by
  have h1 : statsSorted c4wStore.hourlyStats := by
    simp [statsSorted, c4wStore]
  have h2 : ratesNonneg c4wStore := by
    intro r hr
    have : r = ⟨0, 1, 1, 1⟩ := by simpa [c4wStore] using hr
    rw [this]
    refine ⟨by norm_num, by norm_num, by norm_num⟩
  have h3 : ∀ r ∈ c4wStore.hourlyStats, r.timestamp ≤ (0 : Int) := by
    intro r hr
    simp [c4wStore] at hr
  have h4 : changesChron 0 [c4wChange] := ⟨⟨by norm_num, trivial⟩, trivial⟩
  exact ⟨h1, h2, h3, h4, hourlyStats_monotone c4wStore [c4wChange] 0 h1 h2 h3 h4⟩

end HostRevenue
